import Mathlib

/-!
honggfuzz: POSIX crash classification, child launch and the persistent-mode handshake.

A shallow embedding of

* `src/posix/arch.c`   (`arch_sigs`, `arch_analyzeSignal`, `arch_launchChild`),
* `src/libhfuzz/persistent.c` (`readFromFd`, `readFromFdAll`, `writeToFd`, `HF_ITER`),
* `src/trunk/util.c`   (`util_ToFromLE32`, `util_rndGet`, `util_rndBuf`, `util_vssnprintf`,
  `util_ssnprintf`, `util_hash`),
* `src/common.h`       (the constants used by the above).

Platform model: Linux, LP64, little-endian (x86-64).  `size_t` is 64 bits wide,
`int` is 32 bits wide, a `uint32_t` object is stored least significant byte first,
`PATH_MAX` is 4096, `NSIG` is 65 and the signal numbers are those of `<signal.h>`
on that platform.

C strings are lists of `Char`, one element per C `char`, without the terminating
NUL.  Bytes are `Fin 256`.  Logging calls (`LOG_D`, `LOG_I`, `LOG_E`, `fprintf`)
have no effect on the modelled state and are left out.
-/

namespace Honggfuzz

/-! ## Platform constants and C library helpers -/

/-- One C string: the characters before the terminating NUL. -/
abbrev CStr := List Char

/-- One octet. -/
abbrev Byte := Fin 256

/-- Value of `PATH_MAX` from `<limits.h>`. -/
def PATH_MAX : Nat := 4096

/-- Value of `NSIG` from `<signal.h>`: the size of the `arch_sigs` table. -/
def NSIG : Nat := 65

/-- Signal numbers of `<signal.h>` on the modelled platform. -/
def SIGILL : Nat := 4
def SIGABRT : Nat := 6
def SIGBUS : Nat := 7
def SIGFPE : Nat := 8
def SIGKILL : Nat := 9
def SIGSEGV : Nat := 11

/-- Number of values of a `size_t`. -/
def SIZE_T_MOD : Nat := 2 ^ 64

/-- Value of `O_WRONLY` from `<fcntl.h>`. -/
def O_WRONLY : Nat := 0x1
/-- Value of `O_CREAT` from `<fcntl.h>`. -/
def O_CREAT : Nat := 0x40
/-- Value of `O_EXCL` from `<fcntl.h>`. -/
def O_EXCL : Nat := 0x80

/-- Conversion of an integer to `signed char` (two's complement, 8 bits). -/
def toSignedChar (n : Int) : Int :=
  let m := n % 256
  if m < 128 then m else m - 256

/-- Conversion of an integer to `int` (two's complement, 32 bits). -/
def toInt32 (n : Int) : Int :=
  let m := n % 2 ^ 32
  if m < 2 ^ 31 then m else m - 2 ^ 32

/-- The macro `WTERMSIG(status)`, that is `status & 0x7f` on a two's complement `int`. -/
def WTERMSIG (status : Int) : Int := status % 128

/-- The macro `WEXITSTATUS(status)`, that is `(status & 0xff00) >> 8`. -/
def WEXITSTATUS (status : Int) : Int := (status % 65536) / 256

/-- The macro `WIFEXITED(status)`, that is `WTERMSIG(status) == 0`. -/
def WIFEXITED (status : Int) : Bool := WTERMSIG status == 0

/-- The macro `WIFSIGNALED(status)`, that is
`((signed char) ((status & 0x7f) + 1) >> 1) > 0`. -/
def WIFSIGNALED (status : Int) : Bool :=
  decide (0 < (toSignedChar (status % 128 + 1)) >>> 1)

/-- The macro `WIFCONTINUED(status)`, that is `status == 0xffff`. -/
def WIFCONTINUED (status : Int) : Bool := status == 0xffff

/-- What `snprintf(dst, size, ...)` leaves in `dst` when the formatted text is `out`:
at most `size - 1` characters of it. -/
def snprintf (size : Nat) (out : CStr) : CStr := out.take (size - 1)

/-- The conversion `%d` of `printf`. -/
def fmt_d (n : Int) : CStr := (toString n).toList

/-- The conversion `%.*s` of `printf`: a negative precision is taken as if it were
omitted, otherwise at most `prec` characters of the string are written. -/
def fmt_precS (prec : Int) (s : CStr) : CStr :=
  if prec < 0 then s else s.take prec.toNat

/-- The function `strstr(haystack, needle)`, returning the offset of the first
occurrence of `needle` in `haystack`, or `none` for a NULL result. -/
def strstr : CStr → CStr → Option Nat
  | [], needle => if needle = [] then some 0 else none
  | c :: cs, needle =>
    if needle.isPrefixOf (c :: cs) then some 0
    else (strstr cs needle).map (· + 1)

/-! ## `common.h` -/

/-- Name of the template which will be replaced with the proper name of the file. -/
def _HF_FILE_PLACEHOLDER : CStr := "___FILE___".toList

/-- Size (in bytes) for report data. -/
def _HF_REPORT_SIZE : Nat := 8192

/-- Perf bitmap size, `1024U * 1024U * 16U`. -/
def _HF_PERF_BITMAP_SIZE_16M : Nat := 1024 * 1024 * 16

def _HF_PERF_BITMAP_BITSZ_MASK : Nat := 0x7ffffff

/-- FD used to pass data to a persistent process. -/
def _HF_PERSISTENT_FD : Nat := 1023

/-- The fields of `honggfuzz_t` that the modelled functions read or write.
`origFlipRate` is a `double` in the source; it is only ever compared with `0.0`. -/
structure honggfuzz_t where
  cmdline : List CStr
  fuzzStdin : Bool
  useVerifier : Bool
  fileExtn : CStr
  workDir : CStr
  origFlipRate : ℚ
  crashesCnt : Nat
  uniqueCrashesCnt : Nat
  deriving DecidableEq

/-- The fields of `fuzzer_t` that the modelled functions read.  `dynamicFile` holds the
bytes of the buffer the pointer refers to. -/
structure fuzzer_t where
  pid : Int
  origFileName : CStr
  fileName : CStr
  crashFileName : CStr
  dynamicFile : List Byte
  dynamicFileSz : Nat
  deriving DecidableEq

/-- The macro `ATOMIC_POST_INC` applied to a `size_t` counter: the value stored back. -/
def ATOMIC_POST_INC (x : Nat) : Nat := (x + 1) % SIZE_T_MOD

/-! ## The world outside `arch.c` -/

/-- A call that leaves `arch.c`, in the order the calls are made. -/
inductive Event where
  | sancov_Analyze
  | files_writeBufToFile (fileName : CStr) (buf : List Byte) (flags : Nat) (ret : Bool)
  deriving DecidableEq

/-- The file system (path and contents of each file) and the calls made so far,
oldest first. -/
structure World where
  files : List (CStr × List Byte)
  events : List Event
  deriving DecidableEq

/-- Services whose result is not determined by the modelled state: the clock and the
formatting of a local time (`util_getLocalTime(fmt, buf, len, tm)`, a wrapper of
`localtime_r` and `strftime`). -/
structure Env where
  time : Int
  util_getLocalTime : CStr → Nat → Int → CStr

/-- Modelled from the spec: `sancov_Analyze` lives in `sancov.c`, which is not among
the sources.  The spec has it fold sanitizer-coverage files into the `SancovState`;
it touches neither the crash counters nor the crash artifacts, so here it only
leaves a mark in the list of calls. -/
def sancov_Analyze (w : World) : World :=
  { w with events := w.events ++ [Event.sancov_Analyze] }

/-- Modelled from the spec: `files_writeBufToFile` lives in `files.c`, which is not
among the sources.  The spec asks for exclusive-create semantics: with `O_CREAT` and
`O_EXCL` the call fails when the file exists and leaves it alone; otherwise the file
is created (or, without `O_EXCL`, rewritten) with the buffer as its contents.  A file
that does not exist is only created under `O_CREAT`.  The call is recorded with its
result. -/
def files_writeBufToFile (w : World) (fileName : CStr) (buf : List Byte) (flags : Nat) :
    Bool × World :=
  let ret : Bool :=
    match w.files.lookup fileName with
    | some _ => !(flags &&& O_CREAT != 0 && flags &&& O_EXCL != 0)
    | none => flags &&& O_CREAT != 0
  let files := if ret then (fileName, buf) :: w.files.filter (fun f => f.1 != fileName)
    else w.files
  (ret, { files := files,
          events := w.events ++ [Event.files_writeBufToFile fileName buf flags ret] })

/-! ## `posix/arch.c` -/

/-- One entry of the `arch_sigs` table. -/
structure sigs_t where
  important : Bool
  descr : CStr
  deriving DecidableEq

/-- The table `arch_sigs[NSIG]`.  Every entry starts as `{false, "UNKNOWN"}`; the
designated initialisers then set the five entries below (a later initialiser wins
over an earlier one, hence the order of the tests).  An index outside the table has
no entry. -/
def arch_sigs (i : Nat) : Option sigs_t :=
  if i < NSIG then
    some (
      if i = SIGABRT then ⟨true, "SIGABRT".toList⟩
      else if i = SIGBUS then ⟨true, "SIGBUS".toList⟩
      else if i = SIGSEGV then ⟨true, "SIGSEGV".toList⟩
      else if i = SIGFPE then ⟨true, "SIGFPE".toList⟩
      else if i = SIGILL then ⟨true, "SIGILL".toList⟩
      else ⟨false, "UNKNOWN".toList⟩)
  else none

/-- The name `arch_analyzeSignal` builds for the artifact (`newname`). -/
def arch_newname (hfuzz : honggfuzz_t) (fuzzer : fuzzer_t) (descr localtmstr : CStr) : CStr :=
  if hfuzz.origFlipRate = 0 && hfuzz.useVerifier then
    snprintf PATH_MAX fuzzer.origFileName
  else
    snprintf PATH_MAX
      (hfuzz.workDir ++ "/".toList ++ descr ++ ".PID.".toList ++ fmt_d fuzzer.pid
        ++ ".TIME.".toList ++ localtmstr ++ ".".toList ++ hfuzz.fileExtn)

/-- The function `arch_analyzeSignal(hfuzz, status, fuzzer)`: the value returned,
`*hfuzz` afterwards and the world afterwards.  The result is `none` when the
termination signal indexes outside `arch_sigs`. -/
def arch_analyzeSignal (env : Env) (w : World) (hfuzz : honggfuzz_t) (status : Int)
    (fuzzer : fuzzer_t) : Option (Bool × honggfuzz_t × World) :=
  if WIFCONTINUED status then some (false, hfuzz, w)
  else
    let w := if WIFEXITED status || WIFSIGNALED status then sancov_Analyze w else w
    if WIFEXITED status then some (true, hfuzz, w)
    else if !WIFSIGNALED status then some (true, hfuzz, w)
    else
      let termsig := WTERMSIG status
      match arch_sigs termsig.toNat with
      | none => none
      | some sig =>
        if !sig.important then some (true, hfuzz, w)
        else
          let localtmstr := env.util_getLocalTime "%F.%H:%M:%S".toList PATH_MAX env.time
          let newname := arch_newname hfuzz fuzzer sig.descr localtmstr
          let hfuzz := { hfuzz with crashesCnt := ATOMIC_POST_INC hfuzz.crashesCnt }
          let hfuzz := { hfuzz with uniqueCrashesCnt := ATOMIC_POST_INC hfuzz.uniqueCrashesCnt }
          let r := files_writeBufToFile w newname
            (fuzzer.dynamicFile.take fuzzer.dynamicFileSz) (O_CREAT ||| O_EXCL ||| O_WRONLY)
          some (true, hfuzz, r.2)

/-- The macro `ARGS_MAX` of `arch_launchChild`. -/
def ARGS_MAX : Nat := 512

/-- One slot of the local array `args`: a pointer to a string that is not written
during the call (an element of `hfuzz->cmdline`, or `fileName`), or a pointer to the
local buffer `argData`. -/
inductive arg_t where
  | str (s : CStr)
  | argData
  deriving DecidableEq

/-- The loop `for (x = 0; x < ARGS_MAX && hfuzz->cmdline[x]; x++)` of
`arch_launchChild`, from index `x` on: the list argument holds `cmdline[x]`,
`cmdline[x+1]`, ... up to the terminating NULL; `args` holds the slots filled so far
and `argData` the contents of the local buffer.  Returns both when the loop ends. -/
def arch_launchChild_loop (hfuzz : honggfuzz_t) (fileName : CStr) :
    Nat → List CStr → List arg_t → CStr → List arg_t × CStr
  | _, [], args, argData => (args, argData)
  | x, arg :: rest, args, argData =>
    if x < ARGS_MAX then
      if !hfuzz.fuzzStdin && arg == _HF_FILE_PLACEHOLDER then
        arch_launchChild_loop hfuzz fileName (x + 1) rest (args ++ [arg_t.str fileName]) argData
      else
        match (if !hfuzz.fuzzStdin then strstr arg _HF_FILE_PLACEHOLDER else none) with
        | some off =>
          arch_launchChild_loop hfuzz fileName (x + 1) rest (args ++ [arg_t.argData])
            (snprintf PATH_MAX (fmt_precS (toInt32 off) arg ++ fileName))
        | none =>
          arch_launchChild_loop hfuzz fileName (x + 1) rest (args ++ [arg_t.str arg]) argData
    else (args, argData)

/-- The string a slot of `args` points at when `execvp` reads it. -/
def arg_t.deref (argData : CStr) : arg_t → CStr
  | arg_t.str s => s
  | arg_t.argData => argData

/-- The function `arch_launchChild(hfuzz, fileName)` up to its call of `execvp`: the
argument vector handed to `execvp`, each string as it reads then, with `none` for the
NULL stored after the last slot. -/
def arch_launchChild (hfuzz : honggfuzz_t) (fileName : CStr) : List (Option CStr) :=
  let r := arch_launchChild_loop hfuzz fileName 0 hfuzz.cmdline [] []
  (r.1.map (fun a => some (a.deref r.2))) ++ [none]

/-! ## `trunk/util.c` -/

/-- The two values `__BYTE_ORDER` can take. -/
inductive byte_order_t where
  | BIG_ENDIAN
  | LITTLE_ENDIAN
  deriving DecidableEq

/-- The macro `__BYTE_ORDER` of the modelled platform. -/
def BYTE_ORDER : byte_order_t := byte_order_t.LITTLE_ENDIAN

/-- The builtin `__builtin_bswap32` on a 32-bit value. -/
def bswap32 (val : Nat) : Nat :=
  (val % 256) * 2 ^ 24 + (val / 2 ^ 8 % 256) * 2 ^ 16 + (val / 2 ^ 16 % 256) * 2 ^ 8
    + (val / 2 ^ 24 % 256)

/-- The function `util_ToFromLE32(val)`. -/
def util_ToFromLE32 (val : Nat) : Nat :=
  match BYTE_ORDER with
  | byte_order_t.BIG_ENDIAN => bswap32 val
  | byte_order_t.LITTLE_ENDIAN => val

/-! ## `libhfuzz/persistent.c` -/

/-- A region of memory seen through a `uint8_t *`: the byte at each offset. -/
abbrev Mem := Nat → Byte

/-- The region after `data` has been copied to offset `off`. -/
def Mem.store (m : Mem) (off : Nat) (data : List Byte) : Mem :=
  fun i => if off ≤ i then (data.get? (i - off)).getD (m i) else m i

/-- The value of a `uint32_t` object whose four bytes are at offsets 0 to 3 (least
significant byte first on the modelled platform). -/
def loadU32 (m : Mem) : Nat :=
  (m 0).val + (m 1).val * 2 ^ 8 + (m 2).val * 2 ^ 16 + (m 3).val * 2 ^ 24

/-- The four bytes of a `uint32_t` object holding `val` (least significant byte first
on the modelled platform). -/
def storeU32 (val : Nat) : List Byte :=
  [Fin.ofNat val, Fin.ofNat (val / 2 ^ 8), Fin.ofNat (val / 2 ^ 16), Fin.ofNat (val / 2 ^ 24)]

/-- The length prefix of the persistent-mode protocol as the sender emits it: the bytes
of a `uint32_t` holding `util_ToFromLE32(L)`. -/
def encodeLE32 (L : Nat) : List Byte := storeU32 (util_ToFromLE32 (L % 2 ^ 32))

/-- What the kernel answers to one `read` call: `-1` with `errno == EINTR`, `-1` with
another `errno`, or data: at most `extra + 1` bytes, no more than were asked for and no
more than the peer has sent (none of those left means end of file, a result of 0). -/
inductive ReadEv where
  | eintr
  | error
  | data (extra : Nat)
  deriving DecidableEq

/-- What the kernel answers to one `write` call: `-1` with `errno == EINTR`, `-1` with
another `errno`, or the acceptance of at most `n` of the bytes offered. -/
inductive WriteEv where
  | eintr
  | error
  | accept (n : Nat)
  deriving DecidableEq

/-- One byte that crossed the socket: read by the child, or written by the child. -/
inductive Xfer where
  | inp (b : Byte)
  | out (b : Byte)
  deriving DecidableEq

/-- The socket on `_HF_PERSISTENT_FD` seen from the child: the bytes the parent has sent
that are not read yet, the answer of the kernel to each `read` and each `write` call
(by call number), the number of calls made, and the bytes transferred so far in order. -/
structure Sock where
  input : List Byte
  rd : Nat → ReadEv
  nrd : Nat
  wr : Nat → WriteEv
  nwr : Nat
  trace : List Xfer

/-- The bytes the child has written, in order. -/
def Sock.written (fd : Sock) : List Byte :=
  fd.trace.filterMap (fun x => match x with | Xfer.out b => some b | Xfer.inp _ => none)

/-- The loop of `readFromFd(fd, buf, len)` entered with `readSz` bytes read; `fuel`
bounds the number of times the loop condition is tested.  Returns the value returned
(`(ssize_t) readSz` or `-1`), the buffer and the socket. -/
def readFromFd_loop (len : Nat) : Nat → Sock → Mem → Nat → Option (Int × Mem × Sock)
  | 0, _, _, _ => none
  | fuel + 1, fd, buf, readSz =>
    if readSz < len then
      match fd.rd fd.nrd with
      | ReadEv.eintr => readFromFd_loop len fuel { fd with nrd := fd.nrd + 1 } buf readSz
      | ReadEv.error => some (-1, buf, { fd with nrd := fd.nrd + 1 })
      | ReadEv.data extra =>
        let sz := min (extra + 1) (min (len - readSz) fd.input.length)
        if sz = 0 then some ((readSz : Int), buf, { fd with nrd := fd.nrd + 1 })
        else
          readFromFd_loop len fuel
            { fd with nrd := fd.nrd + 1, input := fd.input.drop sz,
                      trace := fd.trace ++ (fd.input.take sz).map Xfer.inp }
            (buf.store readSz (fd.input.take sz)) (readSz + sz)
    else some ((readSz : Int), buf, fd)

/-- The function `readFromFd(fd, buf, len)`. -/
def readFromFd (fuel : Nat) (fd : Sock) (buf : Mem) (len : Nat) : Option (Int × Mem × Sock) :=
  readFromFd_loop len fuel fd buf 0

/-- The function `readFromFdAll(fd, buf, len)`. -/
def readFromFdAll (fuel : Nat) (fd : Sock) (buf : Mem) (len : Nat) :
    Option (Bool × Mem × Sock) :=
  (readFromFd fuel fd buf len).map (fun r => (r.1 == (len : Int), r.2))

/-- The loop of `writeToFd(fd, buf, len)` entered with `writtenSz` bytes written, where
`buf` holds the bytes at the pointer; `fuel` as for `readFromFd_loop`. -/
def writeToFd_loop (buf : List Byte) (len : Nat) : Nat → Sock → Nat → Option (Bool × Sock)
  | 0, _, _ => none
  | fuel + 1, fd, writtenSz =>
    if writtenSz < len then
      match fd.wr fd.nwr with
      | WriteEv.eintr => writeToFd_loop buf len fuel { fd with nwr := fd.nwr + 1 } writtenSz
      | WriteEv.error => some (false, { fd with nwr := fd.nwr + 1 })
      | WriteEv.accept n =>
        let sz := min n (len - writtenSz)
        writeToFd_loop buf len fuel
          { fd with nwr := fd.nwr + 1,
                    trace := fd.trace ++ ((buf.drop writtenSz).take sz).map Xfer.out }
          (writtenSz + sz)
    else some (writtenSz == len, fd)

/-- The function `writeToFd(fd, buf, len)`. -/
def writeToFd (fuel : Nat) (fd : Sock) (buf : List Byte) (len : Nat) : Option (Bool × Sock) :=
  writeToFd_loop buf len fuel fd 0

/-- The statics of `persistent.c` (`initialized`, `buf`) and the socket. -/
structure persistent_t where
  initialized : Bool
  buf : Mem
  fd : Sock

/-- How a call of `HF_ITER` ends: `_exit(status)`, or a return with `*buf_ptr` pointing
at `buf` of the state and `*len_ptr` set to `len`. -/
inductive iter_t where
  | exited (status : Int) (st : persistent_t)
  | returned (st : persistent_t) (len : Nat)

/-- The function `HF_ITER(buf_ptr, len_ptr)`.  The result is `none` when `fuel` does
not suffice for one of the loops.  The local `rlen` is read into a region of its own,
zero before the read. -/
def HF_ITER (fuel : Nat) (st : persistent_t) : Option iter_t :=
  let marker : Option (Bool × Sock) :=
    if st.initialized then writeToFd fuel st.fd [0x41] 1 else some (true, st.fd)
  match marker with
  | none => none
  | some (false, fd) => some (iter_t.exited 1 { st with fd := fd })
  | some (true, fd) =>
    match readFromFdAll fuel fd (fun _ => 0) 4 with
    | none => none
    | some (false, _, fd) => some (iter_t.exited 1 { st with initialized := true, fd := fd })
    | some (true, rlen, fd) =>
      let len := loadU32 rlen
      if len > _HF_PERF_BITMAP_SIZE_16M then
        some (iter_t.exited 1 { st with initialized := true, fd := fd })
      else
        match readFromFdAll fuel fd st.buf len with
        | none => none
        | some (false, buf, fd) =>
          some (iter_t.exited 1 { initialized := true, buf := buf, fd := fd })
        | some (true, buf, fd) =>
          some (iter_t.returned { initialized := true, buf := buf, fd := fd } len)

/-- The first `n` calls of `HF_ITER` made by the loop of `main`, each of which returns:
the state after the last of them.  `none` if one of them does not return. -/
def HF_ITER_calls (fuel : Nat) : Nat → persistent_t → Option persistent_t
  | 0, st => some st
  | n + 1, st =>
    match HF_ITER_calls fuel n st with
    | none => none
    | some st1 =>
      match HF_ITER fuel st1 with
      | some (iter_t.returned st2 _) => some st2
      | _ => none

/-! ## `trunk/util.c`, the random source, the hash and the appending `snprintf` -/

/-- Number of values of a `uint64_t`. -/
def UINT64_MOD : Nat := 2 ^ 64

/-- How a call of `util_rndGet` ends: with a value, in `LOGMSG(l_FATAL, ...)` for
`min > max`, or in the division `rnd % 0`, which has no defined result. -/
inductive rnd_t where
  | value (v : Nat)
  | fatal
  | undefined
  deriving DecidableEq

/-- The function `util_rndGet(min, max)`, where `rnd` is the `uint64_t` read from
`/dev/urandom`.  All arithmetic is that of `uint64_t`. -/
def util_rndGet (rnd min max : Nat) : rnd_t :=
  if min > max then rnd_t.fatal
  else
    let m := (max - min + 1) % UINT64_MOD
    if m = 0 then rnd_t.undefined
    else rnd_t.value ((rnd % m + min) % UINT64_MOD)

/-- The loop `for (i = 0; i < sz; i++)` of `util_rndBuf`, entered at index `i` with
`sz - i` (the first argument) rounds to go and `x` the state of the generator. -/
def util_rndBuf_loop (a c : Nat) : Nat → Nat → Nat → Mem → Mem
  | 0, _, _, buf => buf
  | n + 1, i, x, buf =>
    let x1 := (a * x + c) % UINT64_MOD
    util_rndBuf_loop a c n (i + 1) x1
      (fun j => if j = i then Fin.ofNat ((x1 >>> 32) &&& 0xFF) else buf j)

/-- The function `util_rndBuf(buf, sz)`, where `rnd` is the `uint64_t` that its call of
`util_rndGet` reads: the buffer afterwards, or `none` if `util_rndGet` gives no value. -/
def util_rndBuf (rnd : Nat) (buf : Mem) (sz : Nat) : Option Mem :=
  match util_rndGet rnd 0 (2 ^ 60) with
  | rnd_t.value x =>
    some (util_rndBuf_loop 6364136223846793005 1442695040888963407 sz 0 x buf)
  | _ => none

/-- The function `strncpy(dst, src, n)` into an array of `n` chars: the string then in
`dst`, or `none` when `src` has `n` or more characters, for then no NUL is stored. -/
def strncpy (src : CStr) (n : Nat) : Option CStr :=
  if src.length < n then some src else none

/-- The function `util_vssnprintf(str, size, format, ap)`, where `str` is the string
in the buffer on entry and `out` the text `format` and its arguments expand to: the
value returned and the string in the buffer afterwards.  The result is `none` when an
array of size 0 is declared or `buf1` is left without a NUL. -/
def util_vssnprintf (str : CStr) (size : Nat) (out : CStr) : Option (Int × CStr) :=
  if size = 0 then none
  else
    match strncpy str size with
    | none => none
    | some buf1 =>
      let buf2 := snprintf size out
      some (((buf1 ++ buf2).length : Int), snprintf size (buf1 ++ buf2))

/-- The function `util_ssnprintf(str, size, format, ...)`, with the arguments as for
`util_vssnprintf`. -/
def util_ssnprintf (str : CStr) (size : Nat) (out : CStr) : Option (Int × CStr) :=
  if size = 0 then none
  else
    match strncpy str size with
    | none => none
    | some buf1 =>
      let buf2 := snprintf size out
      some (((buf1 ++ buf2).length : Int), snprintf size (buf1 ++ buf2))

/-- The loop of `util_hash` over the chars not yet consumed, with `ret` so far.  A
`char` is an integer from -128 to 127; adding it to `ret` converts it to `uint64_t`. -/
def util_hash_loop : List Int → Nat → Nat
  | [], ret => ret
  | ch :: rest, ret =>
    let ret1 := (((ret : Int) + ch) % (UINT64_MOD : Int)).toNat
    let ret2 := (ret1 + (ret1 <<< 10) % UINT64_MOD) % UINT64_MOD
    let ret3 := ret2 ^^^ (ret2 >>> 6)
    util_hash_loop rest ret3

/-- The function `util_hash(buf, len)`. -/
def util_hash (buf : List Int) (len : Nat) : Nat :=
  util_hash_loop (buf.take len) 0

/-- The generator the specification describes, `x_0 = seed` and
`x_(k+1) = (6364136223846793005 * x_k + 1442695040888963407) mod 2^64`. -/
def lcg (seed : Nat) : Nat → Nat
  | 0 => seed
  | k + 1 => (6364136223846793005 * lcg seed k + 1442695040888963407) % 2 ^ 64

/-! ## Inputs of the worked examples -/

/-- A socket used in the worked examples below: every other `read` and every other
`write` is interrupted, the others move one byte. -/
def demoSock (input : List Byte) : Sock :=
  { input := input,
    rd := fun i => if i % 2 = 0 then ReadEv.eintr else ReadEv.data 0,
    nrd := 0,
    wr := fun i => if i % 2 = 0 then WriteEv.eintr else WriteEv.accept 1,
    nwr := 0,
    trace := [] }

/-- A child at its start, with three messages waiting on the socket: one byte, no
byte, two bytes. -/
def demoChild : persistent_t :=
  { initialized := false,
    buf := fun _ => 0,
    fd := demoSock (encodeLE32 1 ++ [7] ++ encodeLE32 0 ++ encodeLE32 2 ++ [8, 9]) }

/-! ## Theorems -/

theorem wtermsig_not_continued (status : Int) (h : WTERMSIG status ≠ 127) :
    WIFCONTINUED status = false := by
  unfold WIFCONTINUED
  unfold WTERMSIG at h
  simp only [beq_eq_false_iff_ne, ne_eq]
  intro hc
  subst hc
  exact h (by decide)

theorem arch_sigs_boring (s : Nat) (hN : s < NSIG) (h1 : s ≠ SIGILL) (h2 : s ≠ SIGFPE)
    (h3 : s ≠ SIGSEGV) (h4 : s ≠ SIGBUS) (h5 : s ≠ SIGABRT) :
    arch_sigs s = some ⟨false, "UNKNOWN".toList⟩ := by
  simp [arch_sigs, hN, h1, h2, h3, h4, h5]

theorem arch_sigs_important_iff (s : Nat) (hN : s < NSIG) :
    ((arch_sigs s).map (fun e => e.important) = some true ↔
      (s = SIGILL ∨ s = SIGFPE ∨ s = SIGSEGV ∨ s = SIGBUS ∨ s = SIGABRT)) := by
  unfold NSIG at hN
  interval_cases s <;> decide

/-- The five interesting signals have an entry marked important. -/
theorem arch_sigs_interesting (status : Int)
    (hterm : WTERMSIG status = SIGILL ∨ WTERMSIG status = SIGFPE ∨ WTERMSIG status = SIGSEGV
      ∨ WTERMSIG status = SIGBUS ∨ WTERMSIG status = SIGABRT) :
    ∃ sig, arch_sigs (WTERMSIG status).toNat = some sig ∧ sig.important = true := by
  rcases hterm with h | h | h | h | h <;> rw [h]
  · exact ⟨⟨true, "SIGILL".toList⟩, rfl, rfl⟩
  · exact ⟨⟨true, "SIGFPE".toList⟩, rfl, rfl⟩
  · exact ⟨⟨true, "SIGSEGV".toList⟩, rfl, rfl⟩
  · exact ⟨⟨true, "SIGBUS".toList⟩, rfl, rfl⟩
  · exact ⟨⟨true, "SIGABRT".toList⟩, rfl, rfl⟩

/-- The path of `arch_analyzeSignal` taken for a signal whose table entry is marked
important, written out. -/
theorem arch_analyzeSignal_crash (env : Env) (w : World) (hfuzz : honggfuzz_t)
    (status : Int) (fuzzer : fuzzer_t) (sig : sigs_t)
    (hsig : WIFSIGNALED status = true)
    (hsig1 : arch_sigs (WTERMSIG status).toNat = some sig) (hsig2 : sig.important = true) :
    arch_analyzeSignal env w hfuzz status fuzzer = some (true,
      { hfuzz with crashesCnt := (hfuzz.crashesCnt + 1) % 2 ^ 64,
                   uniqueCrashesCnt := (hfuzz.uniqueCrashesCnt + 1) % 2 ^ 64 },
      (files_writeBufToFile (sancov_Analyze w)
        (arch_newname hfuzz fuzzer sig.descr
          (env.util_getLocalTime "%F.%H:%M:%S".toList PATH_MAX env.time))
        (fuzzer.dynamicFile.take fuzzer.dynamicFileSz) (O_CREAT ||| O_EXCL ||| O_WRONLY)).2) := by
  have h127 : WTERMSIG status ≠ 127 := by
    intro h
    unfold WIFSIGNALED WTERMSIG at *
    rw [h] at hsig
    revert hsig
    decide
  have h0 : WTERMSIG status ≠ 0 := by
    intro h
    unfold WIFSIGNALED WTERMSIG at *
    rw [h] at hsig
    revert hsig
    decide
  have hc : WIFCONTINUED status = false := wtermsig_not_continued status h127
  have he : WIFEXITED status = false := by
    unfold WIFEXITED
    simpa using h0
  simp only [arch_analyzeSignal, hc, he, hsig, hsig1, hsig2]
  simp only [Bool.false_eq_true, if_false, Bool.not_true, Bool.false_or, if_true]
  rfl

/-- C1. A wait status that is `WIFSIGNALED` with termination signal SIGILL, SIGFPE,
SIGSEGV, SIGBUS or SIGABRT is an interesting, unique crash: `arch_analyzeSignal`
returns true, `crashesCnt` and `uniqueCrashesCnt` each go up by exactly one (in
`size_t` arithmetic, hence by one as a number below `SIZE_MAX`), and exactly one
call of `files_writeBufToFile` is made, with the first `dynamicFileSz` bytes of
`dynamicFile` as contents. -/
theorem arch_analyzeSignal_interesting (env : Env) (w : World) (hfuzz : honggfuzz_t)
    (status : Int) (fuzzer : fuzzer_t)
    (hsig : WIFSIGNALED status = true)
    (hterm : WTERMSIG status = SIGILL ∨ WTERMSIG status = SIGFPE ∨ WTERMSIG status = SIGSEGV
      ∨ WTERMSIG status = SIGBUS ∨ WTERMSIG status = SIGABRT) :
    ∃ hfuzz1 w1 newname ret,
      arch_analyzeSignal env w hfuzz status fuzzer = some (true, hfuzz1, w1) ∧
      hfuzz1.crashesCnt = (hfuzz.crashesCnt + 1) % 2 ^ 64 ∧
      hfuzz1.uniqueCrashesCnt = (hfuzz.uniqueCrashesCnt + 1) % 2 ^ 64 ∧
      (hfuzz.crashesCnt + 1 < 2 ^ 64 → hfuzz1.crashesCnt = hfuzz.crashesCnt + 1) ∧
      (hfuzz.uniqueCrashesCnt + 1 < 2 ^ 64 →
        hfuzz1.uniqueCrashesCnt = hfuzz.uniqueCrashesCnt + 1) ∧
      w1.events = w.events ++ [Event.sancov_Analyze,
        Event.files_writeBufToFile newname (fuzzer.dynamicFile.take fuzzer.dynamicFileSz)
          (O_CREAT ||| O_EXCL ||| O_WRONLY) ret] := by
  obtain ⟨sig, hsig1, hsig2⟩ := arch_sigs_interesting status hterm
  refine ⟨_, _,
    arch_newname hfuzz fuzzer sig.descr
      (env.util_getLocalTime "%F.%H:%M:%S".toList PATH_MAX env.time),
    (files_writeBufToFile (sancov_Analyze w)
      (arch_newname hfuzz fuzzer sig.descr
        (env.util_getLocalTime "%F.%H:%M:%S".toList PATH_MAX env.time))
      (fuzzer.dynamicFile.take fuzzer.dynamicFileSz) (O_CREAT ||| O_EXCL ||| O_WRONLY)).1,
    arch_analyzeSignal_crash env w hfuzz status fuzzer sig hsig hsig1 hsig2,
    rfl, rfl, ?_, ?_, ?_⟩
  · intro h
    exact Nat.mod_eq_of_lt h
  · intro h
    exact Nat.mod_eq_of_lt h
  · simp [files_writeBufToFile, sancov_Analyze]

theorem arch_analyzeSignal_interesting_witness :
    WIFSIGNALED 11 = true ∧
    ∃ hfuzz1 w1 newname ret,
      arch_analyzeSignal ⟨0, fun _ _ _ => "T".toList⟩ ⟨[], []⟩
        ⟨[], false, false, "fuzz".toList, "w".toList, 1, 0, 0⟩ 11
        ⟨7, [], [], [], [0xDE, 0xAD], 2⟩ = some (true, hfuzz1, w1) ∧
      hfuzz1.crashesCnt = (0 + 1) % 2 ^ 64 ∧
      hfuzz1.uniqueCrashesCnt = (0 + 1) % 2 ^ 64 ∧
      (0 + 1 < 2 ^ 64 → hfuzz1.crashesCnt = 0 + 1) ∧
      (0 + 1 < 2 ^ 64 → hfuzz1.uniqueCrashesCnt = 0 + 1) ∧
      w1.events = [] ++ [Event.sancov_Analyze,
        Event.files_writeBufToFile newname (([0xDE, 0xAD] : List Byte).take 2)
          (O_CREAT ||| O_EXCL ||| O_WRONLY) ret] :=
  ⟨by decide, arch_analyzeSignal_interesting ⟨0, fun _ _ _ => "T".toList⟩ ⟨[], []⟩
    ⟨[], false, false, "fuzz".toList, "w".toList, 1, 0, 0⟩ 11
    ⟨7, [], [], [], [0xDE, 0xAD], 2⟩ (by decide) (Or.inr (Or.inr (Or.inl (by decide))))⟩

/-- C2. A wait status that is a normal exit (any exit code), or a termination by a
signal of the platform other than SIGILL, SIGFPE, SIGSEGV, SIGBUS and SIGABRT, is
boring: `arch_analyzeSignal` returns true, `*hfuzz` (so both crash counters) is
unchanged, the files are unchanged and the only call made is `sancov_Analyze`.
Moreover `arch_sigs[s].important` is true exactly for those five signals. -/
theorem arch_analyzeSignal_boring (env : Env) (w : World) (hfuzz : honggfuzz_t)
    (status : Int) (fuzzer : fuzzer_t)
    (h : WIFEXITED status = true ∨
      (WIFSIGNALED status = true ∧ ∃ s : Nat, WTERMSIG status = s ∧ s < NSIG ∧
        s ≠ SIGILL ∧ s ≠ SIGFPE ∧ s ≠ SIGSEGV ∧ s ≠ SIGBUS ∧ s ≠ SIGABRT)) :
    (∃ hfuzz1 w1,
      arch_analyzeSignal env w hfuzz status fuzzer = some (true, hfuzz1, w1) ∧
      hfuzz1 = hfuzz ∧
      hfuzz1.crashesCnt = hfuzz.crashesCnt ∧
      hfuzz1.uniqueCrashesCnt = hfuzz.uniqueCrashesCnt ∧
      w1.files = w.files ∧
      w1.events = w.events ++ [Event.sancov_Analyze]) ∧
    (∀ s, s < NSIG → ((arch_sigs s).map (fun e => e.important) = some true ↔
      (s = SIGILL ∨ s = SIGFPE ∨ s = SIGSEGV ∨ s = SIGBUS ∨ s = SIGABRT))) := by
  refine ⟨?_, arch_sigs_important_iff⟩
  rcases h with he | ⟨hsig, s, hs, hN, h1, h2, h3, h4, h5⟩
  · have hc : WIFCONTINUED status = false := by
      apply wtermsig_not_continued
      unfold WIFEXITED at he
      have : WTERMSIG status = 0 := by simpa using he
      rw [this]; decide
    refine ⟨hfuzz, sancov_Analyze w, ?_, rfl, rfl, rfl, rfl, rfl⟩
    simp [arch_analyzeSignal, hc, he]
  · have hc : WIFCONTINUED status = false := by
      apply wtermsig_not_continued
      intro h127
      unfold WIFSIGNALED WTERMSIG at *
      rw [h127] at hsig
      revert hsig
      decide
    have he : WIFEXITED status = false := by
      unfold WIFEXITED WIFSIGNALED WTERMSIG at *
      cases hz : (status % 128 == 0)
      · rfl
      · have : status % 128 = 0 := by simpa using hz
        rw [this] at hsig
        revert hsig
        decide
    have hsg := arch_sigs_boring s hN h1 h2 h3 h4 h5
    refine ⟨hfuzz, sancov_Analyze w, ?_, rfl, rfl, rfl, rfl, rfl⟩
    simp [arch_analyzeSignal, hc, he, hsig, hs, hsg]

theorem arch_analyzeSignal_boring_witness :
    (WIFEXITED 9 = true ∨
      (WIFSIGNALED 9 = true ∧ ∃ s : Nat, WTERMSIG 9 = s ∧ s < NSIG ∧
        s ≠ SIGILL ∧ s ≠ SIGFPE ∧ s ≠ SIGSEGV ∧ s ≠ SIGBUS ∧ s ≠ SIGABRT)) ∧
    ((∃ hfuzz1 w1,
      arch_analyzeSignal ⟨0, fun _ _ _ => "T".toList⟩ ⟨[], []⟩
        ⟨[], false, false, "fuzz".toList, "w".toList, 1, 3, 2⟩ 9
        ⟨7, [], [], [], [0xDE, 0xAD], 2⟩ = some (true, hfuzz1, w1) ∧
      hfuzz1 = ⟨[], false, false, "fuzz".toList, "w".toList, 1, 3, 2⟩ ∧
      hfuzz1.crashesCnt = 3 ∧
      hfuzz1.uniqueCrashesCnt = 2 ∧
      w1.files = [] ∧
      w1.events = [] ++ [Event.sancov_Analyze]) ∧
    (∀ s, s < NSIG → ((arch_sigs s).map (fun e => e.important) = some true ↔
      (s = SIGILL ∨ s = SIGFPE ∨ s = SIGSEGV ∨ s = SIGBUS ∨ s = SIGABRT)))) :=
  have hyp : (WIFEXITED 9 = true ∨
      (WIFSIGNALED 9 = true ∧ ∃ s : Nat, WTERMSIG 9 = s ∧ s < NSIG ∧
        s ≠ SIGILL ∧ s ≠ SIGFPE ∧ s ≠ SIGSEGV ∧ s ≠ SIGBUS ∧ s ≠ SIGABRT)) :=
    Or.inr ⟨by decide, 9, by decide, by decide, by decide, by decide, by decide, by decide,
      by decide⟩
  ⟨hyp, arch_analyzeSignal_boring ⟨0, fun _ _ _ => "T".toList⟩ ⟨[], []⟩
    ⟨[], false, false, "fuzz".toList, "w".toList, 1, 3, 2⟩ 9
    ⟨7, [], [], [], [0xDE, 0xAD], 2⟩ hyp⟩

/-- The exclusive-create write fails on a path that has a file, and changes no file. -/
theorem files_writeBufToFile_exists (w : World) (fileName : CStr) (buf old : List Byte)
    (h : w.files.lookup fileName = some old) :
    files_writeBufToFile w fileName buf (O_CREAT ||| O_EXCL ||| O_WRONLY) =
      (false, { files := w.files, events := w.events ++
        [Event.files_writeBufToFile fileName buf (O_CREAT ||| O_EXCL ||| O_WRONLY) false] }) := by
  have h1 : ((O_CREAT ||| O_EXCL ||| O_WRONLY) &&& O_CREAT != 0) = true := by decide
  have h2 : ((O_CREAT ||| O_EXCL ||| O_WRONLY) &&& O_EXCL != 0) = true := by decide
  simp only [files_writeBufToFile, h, h1, h2]
  rfl

/-- C3. Outside dry-run mode (`origFlipRate != 0` or `useVerifier` off), for each of
the five interesting signals the path handed to the artifact write is the first
`PATH_MAX - 1` characters of
`workDir/NAME.PID.<pid in decimal>.TIME.<local time under %F.%H:%M:%S>.<fileExtn>`,
where NAME is the literal SIGILL, SIGFPE, SIGSEGV, SIGBUS or SIGABRT matching the
signal; when that text has at most `PATH_MAX - 1` characters the path is exactly it. -/
theorem arch_analyzeSignal_newname (env : Env) (w : World) (hfuzz : honggfuzz_t)
    (status : Int) (fuzzer : fuzzer_t) (name : CStr)
    (hsig : WIFSIGNALED status = true)
    (hterm : (WTERMSIG status = SIGILL ∧ name = "SIGILL".toList) ∨
      (WTERMSIG status = SIGFPE ∧ name = "SIGFPE".toList) ∨
      (WTERMSIG status = SIGSEGV ∧ name = "SIGSEGV".toList) ∨
      (WTERMSIG status = SIGBUS ∧ name = "SIGBUS".toList) ∨
      (WTERMSIG status = SIGABRT ∧ name = "SIGABRT".toList))
    (hdry : hfuzz.origFlipRate ≠ 0 ∨ hfuzz.useVerifier = false) :
    ∃ hfuzz1 w1 newname ret,
      arch_analyzeSignal env w hfuzz status fuzzer = some (true, hfuzz1, w1) ∧
      w1.events = w.events ++ [Event.sancov_Analyze,
        Event.files_writeBufToFile newname (fuzzer.dynamicFile.take fuzzer.dynamicFileSz)
          (O_CREAT ||| O_EXCL ||| O_WRONLY) ret] ∧
      newname = (hfuzz.workDir ++ "/".toList ++ name ++ ".PID.".toList ++ fmt_d fuzzer.pid
        ++ ".TIME.".toList ++ env.util_getLocalTime "%F.%H:%M:%S".toList PATH_MAX env.time
        ++ ".".toList ++ hfuzz.fileExtn).take (PATH_MAX - 1) ∧
      ((hfuzz.workDir ++ "/".toList ++ name ++ ".PID.".toList ++ fmt_d fuzzer.pid
        ++ ".TIME.".toList ++ env.util_getLocalTime "%F.%H:%M:%S".toList PATH_MAX env.time
        ++ ".".toList ++ hfuzz.fileExtn).length ≤ PATH_MAX - 1 →
       newname = hfuzz.workDir ++ "/".toList ++ name ++ ".PID.".toList ++ fmt_d fuzzer.pid
        ++ ".TIME.".toList ++ env.util_getLocalTime "%F.%H:%M:%S".toList PATH_MAX env.time
        ++ ".".toList ++ hfuzz.fileExtn) := by
  have hs : arch_sigs (WTERMSIG status).toNat = some ⟨true, name⟩ := by
    rcases hterm with ⟨h, hn⟩ | ⟨h, hn⟩ | ⟨h, hn⟩ | ⟨h, hn⟩ | ⟨h, hn⟩ <;> rw [h, hn] <;> rfl
  have hnd : (hfuzz.origFlipRate = 0 && hfuzz.useVerifier) = false := by
    rcases hdry with h | h
    · simp [h]
    · simp [h]
  have hname : arch_newname hfuzz fuzzer name
      (env.util_getLocalTime "%F.%H:%M:%S".toList PATH_MAX env.time) =
      (hfuzz.workDir ++ "/".toList ++ name ++ ".PID.".toList ++ fmt_d fuzzer.pid
        ++ ".TIME.".toList ++ env.util_getLocalTime "%F.%H:%M:%S".toList PATH_MAX env.time
        ++ ".".toList ++ hfuzz.fileExtn).take (PATH_MAX - 1) := by
    unfold arch_newname snprintf
    rw [hnd]
    rfl
  refine ⟨_, _,
    arch_newname hfuzz fuzzer name
      (env.util_getLocalTime "%F.%H:%M:%S".toList PATH_MAX env.time),
    (files_writeBufToFile (sancov_Analyze w)
      (arch_newname hfuzz fuzzer name
        (env.util_getLocalTime "%F.%H:%M:%S".toList PATH_MAX env.time))
      (fuzzer.dynamicFile.take fuzzer.dynamicFileSz) (O_CREAT ||| O_EXCL ||| O_WRONLY)).1,
    arch_analyzeSignal_crash env w hfuzz status fuzzer _ hsig hs rfl, ?_, hname, ?_⟩
  · simp [files_writeBufToFile, sancov_Analyze]
  · intro hfit
    rw [hname]
    exact List.take_of_length_le hfit

theorem arch_analyzeSignal_newname_witness :
    WIFSIGNALED 11 = true ∧
    ∃ hfuzz1 w1 newname ret,
      arch_analyzeSignal ⟨0, fun _ _ _ => "2015-12-31.23:59:59".toList⟩ ⟨[], []⟩
        ⟨[], false, false, "fuzz".toList, "/tmp/out".toList, 1, 0, 0⟩ 11
        ⟨4242, [], [], [], [0xDE, 0xAD], 2⟩ = some (true, hfuzz1, w1) ∧
      w1.events = [] ++ [Event.sancov_Analyze,
        Event.files_writeBufToFile newname (([0xDE, 0xAD] : List Byte).take 2)
          (O_CREAT ||| O_EXCL ||| O_WRONLY) ret] ∧
      newname = ("/tmp/out".toList ++ "/".toList ++ "SIGSEGV".toList ++ ".PID.".toList
        ++ fmt_d 4242 ++ ".TIME.".toList ++ "2015-12-31.23:59:59".toList
        ++ ".".toList ++ "fuzz".toList).take (PATH_MAX - 1) ∧
      (("/tmp/out".toList ++ "/".toList ++ "SIGSEGV".toList ++ ".PID.".toList
        ++ fmt_d 4242 ++ ".TIME.".toList ++ "2015-12-31.23:59:59".toList
        ++ ".".toList ++ "fuzz".toList).length ≤ PATH_MAX - 1 →
       newname = "/tmp/out".toList ++ "/".toList ++ "SIGSEGV".toList ++ ".PID.".toList
        ++ fmt_d 4242 ++ ".TIME.".toList ++ "2015-12-31.23:59:59".toList
        ++ ".".toList ++ "fuzz".toList) :=
  ⟨by decide, arch_analyzeSignal_newname ⟨0, fun _ _ _ => "2015-12-31.23:59:59".toList⟩ ⟨[], []⟩
    ⟨[], false, false, "fuzz".toList, "/tmp/out".toList, 1, 0, 0⟩ 11
    ⟨4242, [], [], [], [0xDE, 0xAD], 2⟩ "SIGSEGV".toList (by decide)
    (Or.inr (Or.inr (Or.inl ⟨by decide, rfl⟩))) (Or.inl (by decide))⟩

/-- The artifact name of the scenario of section 8.1 of the specification, evaluated. -/
theorem arch_newname_example :
    arch_newname ⟨[], false, false, "fuzz".toList, "/tmp/out".toList, 1, 0, 0⟩
      ⟨4242, [], [], [], [], 0⟩ "SIGSEGV".toList "2015-12-31.23:59:59".toList =
      "/tmp/out/SIGSEGV.PID.4242.TIME.2015-12-31.23:59:59.fuzz".toList := by
  decide

/-- C4, as amended. When an interesting crash occurs and a file already exists at the
artifact path, the exclusive-create write fails and no file is changed, yet the crash
has been counted before the write: `crashesCnt` and `uniqueCrashesCnt` are each one
higher after the call (in `size_t` arithmetic), and `arch_analyzeSignal` returns
true. -/
theorem arch_analyzeSignal_existing_artifact (env : Env) (w : World) (hfuzz : honggfuzz_t)
    (status : Int) (fuzzer : fuzzer_t) (sig : sigs_t) (old : List Byte)
    (hsig : WIFSIGNALED status = true)
    (hsig1 : arch_sigs (WTERMSIG status).toNat = some sig) (hsig2 : sig.important = true)
    (hex : w.files.lookup (arch_newname hfuzz fuzzer sig.descr
      (env.util_getLocalTime "%F.%H:%M:%S".toList PATH_MAX env.time)) = some old) :
    ∃ hfuzz1 w1,
      arch_analyzeSignal env w hfuzz status fuzzer = some (true, hfuzz1, w1) ∧
      w1.events = w.events ++ [Event.sancov_Analyze,
        Event.files_writeBufToFile (arch_newname hfuzz fuzzer sig.descr
            (env.util_getLocalTime "%F.%H:%M:%S".toList PATH_MAX env.time))
          (fuzzer.dynamicFile.take fuzzer.dynamicFileSz)
          (O_CREAT ||| O_EXCL ||| O_WRONLY) false] ∧
      w1.files = w.files ∧
      hfuzz1.crashesCnt = (hfuzz.crashesCnt + 1) % 2 ^ 64 ∧
      hfuzz1.uniqueCrashesCnt = (hfuzz.uniqueCrashesCnt + 1) % 2 ^ 64 := by
  have hw := files_writeBufToFile_exists (sancov_Analyze w)
    (arch_newname hfuzz fuzzer sig.descr
      (env.util_getLocalTime "%F.%H:%M:%S".toList PATH_MAX env.time))
    (fuzzer.dynamicFile.take fuzzer.dynamicFileSz) old hex
  refine ⟨_, _, arch_analyzeSignal_crash env w hfuzz status fuzzer sig hsig hsig1 hsig2,
    ?_, ?_, rfl, rfl⟩
  · rw [hw]
    simp [sancov_Analyze]
  · rw [hw]
    rfl

theorem arch_analyzeSignal_existing_artifact_witness :
    WIFSIGNALED 11 = true ∧
    List.lookup (arch_newname ⟨[], false, false, "fuzz".toList, "/tmp/out".toList, 1, 5, 5⟩
        ⟨4242, [], [], [], [0xDE, 0xAD], 2⟩ "SIGSEGV".toList "2015-12-31.23:59:59".toList)
      [("/tmp/out/SIGSEGV.PID.4242.TIME.2015-12-31.23:59:59.fuzz".toList, ([1] : List Byte))]
      = some [1] ∧
    ∃ hfuzz1 w1,
      arch_analyzeSignal ⟨0, fun _ _ _ => "2015-12-31.23:59:59".toList⟩
        ⟨[("/tmp/out/SIGSEGV.PID.4242.TIME.2015-12-31.23:59:59.fuzz".toList, [1])], []⟩
        ⟨[], false, false, "fuzz".toList, "/tmp/out".toList, 1, 5, 5⟩ 11
        ⟨4242, [], [], [], [0xDE, 0xAD], 2⟩ = some (true, hfuzz1, w1) ∧
      w1.events = [] ++ [Event.sancov_Analyze,
        Event.files_writeBufToFile
          (arch_newname ⟨[], false, false, "fuzz".toList, "/tmp/out".toList, 1, 5, 5⟩
            ⟨4242, [], [], [], [0xDE, 0xAD], 2⟩ "SIGSEGV".toList "2015-12-31.23:59:59".toList)
          (([0xDE, 0xAD] : List Byte).take 2)
          (O_CREAT ||| O_EXCL ||| O_WRONLY) false] ∧
      w1.files = [("/tmp/out/SIGSEGV.PID.4242.TIME.2015-12-31.23:59:59.fuzz".toList, [1])] ∧
      hfuzz1.crashesCnt = (5 + 1) % 2 ^ 64 ∧
      hfuzz1.uniqueCrashesCnt = (5 + 1) % 2 ^ 64 :=
  ⟨by decide, by decide,
   arch_analyzeSignal_existing_artifact ⟨0, fun _ _ _ => "2015-12-31.23:59:59".toList⟩
    ⟨[("/tmp/out/SIGSEGV.PID.4242.TIME.2015-12-31.23:59:59.fuzz".toList, [1])], []⟩
    ⟨[], false, false, "fuzz".toList, "/tmp/out".toList, 1, 5, 5⟩ 11
    ⟨4242, [], [], [], [0xDE, 0xAD], 2⟩ ⟨true, "SIGSEGV".toList⟩ [1]
    (by decide) (by decide) rfl (by decide)⟩

/-- C4 as stated fails: with a file already at the artifact path the write is refused,
and `uniqueCrashesCnt` is 6 after the call where it was 5 before. -/
theorem arch_analyzeSignal_existing_artifact_counterexample :
    ∃ hfuzz1 w1,
      List.lookup "/tmp/out/SIGSEGV.PID.4242.TIME.2015-12-31.23:59:59.fuzz".toList
        [("/tmp/out/SIGSEGV.PID.4242.TIME.2015-12-31.23:59:59.fuzz".toList, ([1] : List Byte))]
        = some [1] ∧
      arch_analyzeSignal ⟨0, fun _ _ _ => "2015-12-31.23:59:59".toList⟩
        ⟨[("/tmp/out/SIGSEGV.PID.4242.TIME.2015-12-31.23:59:59.fuzz".toList, [1])], []⟩
        ⟨[], false, false, "fuzz".toList, "/tmp/out".toList, 1, 5, 5⟩ 11
        ⟨4242, [], [], [], [0xDE, 0xAD], 2⟩ = some (true, hfuzz1, w1) ∧
      w1.events = [Event.sancov_Analyze,
        Event.files_writeBufToFile
          "/tmp/out/SIGSEGV.PID.4242.TIME.2015-12-31.23:59:59.fuzz".toList [0xDE, 0xAD]
          (O_CREAT ||| O_EXCL ||| O_WRONLY) false] ∧
      w1.files = [("/tmp/out/SIGSEGV.PID.4242.TIME.2015-12-31.23:59:59.fuzz".toList, [1])] ∧
      hfuzz1.uniqueCrashesCnt = 6 ∧
      hfuzz1.uniqueCrashesCnt ≠ 5 :=
  ⟨⟨[], false, false, "fuzz".toList, "/tmp/out".toList, 1, 6, 6⟩,
   ⟨[("/tmp/out/SIGSEGV.PID.4242.TIME.2015-12-31.23:59:59.fuzz".toList, [1])],
     [Event.sancov_Analyze,
        Event.files_writeBufToFile
          "/tmp/out/SIGSEGV.PID.4242.TIME.2015-12-31.23:59:59.fuzz".toList [0xDE, 0xAD]
          (O_CREAT ||| O_EXCL ||| O_WRONLY) false]⟩,
   by decide, by decide, rfl, rfl, rfl, by decide⟩

/-- Whenever `strstr` finds the needle, the needle occurs in the haystack. -/
theorem strstr_some_occurs (needle : CStr) :
    ∀ (hay : CStr) (k : Nat), strstr hay needle = some k → needle <:+: hay
  | [], k, h => by
    unfold strstr at h
    by_cases hn : needle = []
    · rw [hn]
    · simp [hn] at h
  | c :: cs, k, h => by
    unfold strstr at h
    by_cases hp : needle.isPrefixOf (c :: cs) = true
    · exact (List.isPrefixOf_iff_prefix.mp hp).isInfix
    · simp only [hp, Bool.false_eq_true, if_false, Option.map_eq_some'] at h
      obtain ⟨k1, hk1, _⟩ := h
      have ih := strstr_some_occurs needle cs k1 hk1
      exact ih.trans (List.suffix_cons c cs).isInfix

theorem strstr_none_of_absent (needle hay : CStr) (h : ¬ needle <:+: hay) :
    strstr hay needle = none := by
  cases hs : strstr hay needle with
  | none => rfl
  | some k => exact absurd (strstr_some_occurs needle hay k hs) h

/-- The loop of `arch_launchChild` in stdin mode copies the command line. -/
theorem arch_launchChild_loop_stdin (hfuzz : honggfuzz_t) (fileName : CStr)
    (hstd : hfuzz.fuzzStdin = true) :
    ∀ (rest : List CStr) (x : Nat) (args : List arg_t) (argData : CStr),
      x + rest.length ≤ ARGS_MAX →
      arch_launchChild_loop hfuzz fileName x rest args argData =
        (args ++ rest.map arg_t.str, argData)
  | [], x, args, argData, _ => by simp [arch_launchChild_loop]
  | arg :: rest, x, args, argData, hx => by
    have hlt : x < ARGS_MAX := by
      simp only [List.length_cons] at hx
      omega
    have ih := arch_launchChild_loop_stdin hfuzz fileName hstd rest (x + 1)
      (args ++ [arg_t.str arg]) argData (by simp only [List.length_cons] at hx; omega)
    simp [arch_launchChild_loop, hlt, hstd, ih]

/-- The loop of `arch_launchChild` in file mode, on a command line where the
placeholder only occurs as a whole element. -/
theorem arch_launchChild_loop_whole (hfuzz : honggfuzz_t) (fileName : CStr)
    (hstd : hfuzz.fuzzStdin = false) :
    ∀ (rest : List CStr) (x : Nat) (args : List arg_t) (argData : CStr),
      x + rest.length ≤ ARGS_MAX →
      (∀ e ∈ rest, _HF_FILE_PLACEHOLDER <:+: e → e = _HF_FILE_PLACEHOLDER) →
      arch_launchChild_loop hfuzz fileName x rest args argData =
        (args ++ rest.map
          (fun e => arg_t.str (if e = _HF_FILE_PLACEHOLDER then fileName else e)), argData)
  | [], x, args, argData, _, _ => by simp [arch_launchChild_loop]
  | arg :: rest, x, args, argData, hx, hp => by
    have hlt : x < ARGS_MAX := by
      simp only [List.length_cons] at hx
      omega
    have hrest : ∀ e ∈ rest, _HF_FILE_PLACEHOLDER <:+: e → e = _HF_FILE_PLACEHOLDER :=
      fun e he => hp e (List.mem_cons_of_mem _ he)
    have hx1 : x + 1 + rest.length ≤ ARGS_MAX := by
      simp only [List.length_cons] at hx
      omega
    by_cases heq : arg = _HF_FILE_PLACEHOLDER
    · have ih := arch_launchChild_loop_whole hfuzz fileName hstd rest (x + 1)
        (args ++ [arg_t.str fileName]) argData hx1 hrest
      simp [arch_launchChild_loop, hlt, hstd, heq, ih]
    · have hnone : strstr arg _HF_FILE_PLACEHOLDER = none :=
        strstr_none_of_absent _ _ (fun hin => heq (hp arg (List.mem_cons_self _ _) hin))
      have ih := arch_launchChild_loop_whole hfuzz fileName hstd rest (x + 1)
        (args ++ [arg_t.str arg]) argData hx1 hrest
      simp [arch_launchChild_loop, hlt, hstd, heq, hnone, ih]

/-- C5, the code at two command lines. With text after the token
(`--in=___FILE___.bak`) the argument handed to `execvp` is `--in=/tmp/f`: the text
after the token is lost. With two elements that contain the token
(`-i___FILE___`, `-o___FILE___`) both arguments read `-o/tmp/f`: both slots point at
the one buffer `argData`, which holds what was written last. -/
theorem arch_launchChild_placeholder_inside :
    arch_launchChild ⟨["prog".toList, "--in=___FILE___.bak".toList], false, false, [], [], 1, 0, 0⟩
        "/tmp/f".toList =
      [some "prog".toList, some "--in=/tmp/f".toList, none] ∧
    arch_launchChild
        ⟨["prog".toList, "-i___FILE___".toList, "-o___FILE___".toList], false, false, [], [], 1, 0, 0⟩
        "/tmp/f".toList =
      [some "prog".toList, some "-o/tmp/f".toList, some "-o/tmp/f".toList, none] := by
  constructor <;> decide

/-- C6. With `fuzzStdin` off, on a command line of at most 512 elements none of which
contains `___FILE___` as a proper substring, `execvp` receives as many arguments as the
command line has elements, in the same order and followed by NULL: `fileName` where the
element is `___FILE___`, the element itself otherwise. -/
theorem arch_launchChild_whole_placeholder (hfuzz : honggfuzz_t) (fileName : CStr)
    (hstd : hfuzz.fuzzStdin = false)
    (hlen : hfuzz.cmdline.length ≤ 512)
    (hp : ∀ e ∈ hfuzz.cmdline, _HF_FILE_PLACEHOLDER <:+: e → e = _HF_FILE_PLACEHOLDER) :
    arch_launchChild hfuzz fileName =
      hfuzz.cmdline.map
        (fun e => some (if e = _HF_FILE_PLACEHOLDER then fileName else e)) ++ [none] ∧
    (arch_launchChild hfuzz fileName).length = hfuzz.cmdline.length + 1 := by
  have h := arch_launchChild_loop_whole hfuzz fileName hstd hfuzz.cmdline 0 [] []
    (by simpa [ARGS_MAX] using hlen) hp
  have h1 : arch_launchChild hfuzz fileName =
      hfuzz.cmdline.map
        (fun e => some (if e = _HF_FILE_PLACEHOLDER then fileName else e)) ++ [none] := by
    simp [arch_launchChild, h, arg_t.deref, Function.comp_def]
  exact ⟨h1, by rw [h1]; simp⟩

theorem arch_launchChild_whole_placeholder_witness :
    (["prog".toList, "-x".toList, "___FILE___".toList] : List CStr).length ≤ 512 ∧
    (arch_launchChild
        ⟨["prog".toList, "-x".toList, "___FILE___".toList], false, false, [], [], 1, 0, 0⟩
        "/tmp/f".toList =
      (["prog".toList, "-x".toList, "___FILE___".toList] : List CStr).map
        (fun e => some (if e = _HF_FILE_PLACEHOLDER then "/tmp/f".toList else e)) ++ [none] ∧
    (arch_launchChild
        ⟨["prog".toList, "-x".toList, "___FILE___".toList], false, false, [], [], 1, 0, 0⟩
        "/tmp/f".toList).length =
      (["prog".toList, "-x".toList, "___FILE___".toList] : List CStr).length + 1) :=
  ⟨by decide,
   arch_launchChild_whole_placeholder
    ⟨["prog".toList, "-x".toList, "___FILE___".toList], false, false, [], [], 1, 0, 0⟩
    "/tmp/f".toList rfl (by decide) (by decide)⟩

/-- C7. With `fuzzStdin` on, on a command line of at most 512 elements `execvp`
receives the command line element for element, followed by NULL, whether or not an
element equals or contains `___FILE___`; so `fileName` is among the arguments only if
it is an element of the command line. -/
theorem arch_launchChild_stdin (hfuzz : honggfuzz_t) (fileName : CStr)
    (hstd : hfuzz.fuzzStdin = true)
    (hlen : hfuzz.cmdline.length ≤ 512) :
    arch_launchChild hfuzz fileName = hfuzz.cmdline.map some ++ [none] ∧
    (some fileName ∈ arch_launchChild hfuzz fileName → fileName ∈ hfuzz.cmdline) := by
  have h := arch_launchChild_loop_stdin hfuzz fileName hstd hfuzz.cmdline 0 [] []
    (by simpa [ARGS_MAX] using hlen)
  have h1 : arch_launchChild hfuzz fileName = hfuzz.cmdline.map some ++ [none] := by
    simp [arch_launchChild, h, arg_t.deref, Function.comp_def]
  refine ⟨h1, ?_⟩
  rw [h1]
  intro hm
  simpa using hm

theorem arch_launchChild_stdin_witness :
    (["prog".toList, "-i___FILE___".toList, "___FILE___".toList] : List CStr).length ≤ 512 ∧
    (arch_launchChild
        ⟨["prog".toList, "-i___FILE___".toList, "___FILE___".toList], true, false, [], [], 1, 0, 0⟩
        "/tmp/f".toList =
      (["prog".toList, "-i___FILE___".toList, "___FILE___".toList] : List CStr).map some
        ++ [none] ∧
    (some "/tmp/f".toList ∈ arch_launchChild
        ⟨["prog".toList, "-i___FILE___".toList, "___FILE___".toList], true, false, [], [], 1, 0, 0⟩
        "/tmp/f".toList →
      "/tmp/f".toList ∈ (["prog".toList, "-i___FILE___".toList, "___FILE___".toList] : List CStr))) :=
  ⟨by decide,
   arch_launchChild_stdin
    ⟨["prog".toList, "-i___FILE___".toList, "___FILE___".toList], true, false, [], [], 1, 0, 0⟩
    "/tmp/f".toList rfl (by decide)⟩

theorem Mem.store_nil (m : Mem) (off : Nat) : m.store off [] = m := by
  funext i
  simp [Mem.store]

theorem loadU32_store (m : Mem) (b0 b1 b2 b3 : Byte) :
    loadU32 (m.store 0 [b0, b1, b2, b3]) =
      b0.val + b1.val * 2 ^ 8 + b2.val * 2 ^ 16 + b3.val * 2 ^ 24 := by
  simp [loadU32, Mem.store]

/-- C10. The length prefix round-trips: the four bytes `b`, read into a `uint32_t` as
`HF_ITER` reads them and emitted again as four little-endian bytes, give `b`; and a
32-bit length `L` emitted as four little-endian bytes and read as `HF_ITER` reads
them gives `L`. -/
theorem length_prefix_roundtrip (b0 b1 b2 b3 : Byte) (m : Mem) (L : Nat) :
    encodeLE32 (loadU32 (m.store 0 [b0, b1, b2, b3])) = [b0, b1, b2, b3] ∧
    loadU32 (m.store 0 (encodeLE32 L)) = L % 2 ^ 32 := by
  constructor
  · rw [loadU32_store]
    have h0 := b0.isLt
    have h1 := b1.isLt
    have h2 := b2.isLt
    have h3 := b3.isLt
    have hlt : b0.val + b1.val * 2 ^ 8 + b2.val * 2 ^ 16 + b3.val * 2 ^ 24 < 2 ^ 32 := by omega
    simp only [encodeLE32, util_ToFromLE32, BYTE_ORDER, storeU32, Nat.mod_eq_of_lt hlt]
    have e0 : (Fin.ofNat (b0.val + b1.val * 2 ^ 8 + b2.val * 2 ^ 16 + b3.val * 2 ^ 24) : Fin 256) = b0 := by
      apply Fin.ext
      simp only [Fin.ofNat]
      omega
    have e1 : (Fin.ofNat ((b0.val + b1.val * 2 ^ 8 + b2.val * 2 ^ 16 + b3.val * 2 ^ 24) / 2 ^ 8) : Fin 256) = b1 := by
      apply Fin.ext
      simp only [Fin.ofNat]
      omega
    have e2 : (Fin.ofNat ((b0.val + b1.val * 2 ^ 8 + b2.val * 2 ^ 16 + b3.val * 2 ^ 24) / 2 ^ 16) : Fin 256) = b2 := by
      apply Fin.ext
      simp only [Fin.ofNat]
      omega
    have e3 : (Fin.ofNat ((b0.val + b1.val * 2 ^ 8 + b2.val * 2 ^ 16 + b3.val * 2 ^ 24) / 2 ^ 24) : Fin 256) = b3 := by
      apply Fin.ext
      simp only [Fin.ofNat]
      omega
    rw [e0, e1, e2, e3]
  · simp only [encodeLE32, util_ToFromLE32, BYTE_ORDER, storeU32]
    rw [loadU32_store]
    simp only [Fin.ofNat]
    omega



theorem Mem.store_store (m : Mem) (off : Nat) (a b : List Byte) :
    (m.store off a).store (off + a.length) b = m.store off (a ++ b) := by
  funext i
  simp only [Mem.store]
  by_cases h1 : off + a.length ≤ i
  · have h2 : off ≤ i := by omega
    have h3 : ¬ i - off < a.length := by omega
    have h4 : i - (off + a.length) = i - off - a.length := by omega
    simp only [h1, h2, if_true, List.get?_eq_getElem?, h4]
    rw [List.getElem?_append_right (by omega)]
    cases hb : b[i - off - a.length]? with
    | some v => simp
    | none =>
      simp only [Option.getD_none]
      rw [List.getElem?_eq_none (by omega)]
      simp
  · by_cases h2 : off ≤ i
    · have h3 : i - off < a.length := by omega
      simp only [h1, h2, if_true, if_false, List.get?_eq_getElem?]
      rw [List.getElem?_append_left h3]
    · simp [h1, h2]

theorem Mem.store_prefix (m : Mem) (data : List Byte) (i : Nat) (h : i < data.length) :
    (m.store 0 data) i = data.get ⟨i, h⟩ := by
  simp [Mem.store, List.getElem?_eq_getElem h]

/-- One `read` that delivers data, followed by the rest of the loop. -/
theorem readFromFd_loop_data (len : Nat) (fuel : Nat) (fd : Sock) (buf : Mem) (readSz k : Nat)
    (hlt : readSz < len) (hev : fd.rd fd.nrd = ReadEv.data k)
    (hpos : min (k + 1) (min (len - readSz) fd.input.length) ≠ 0) :
    readFromFd_loop len (fuel + 1) fd buf readSz =
      readFromFd_loop len fuel
        { fd with nrd := fd.nrd + 1,
                  input := fd.input.drop (min (k + 1) (min (len - readSz) fd.input.length)),
                  trace := fd.trace ++ (fd.input.take
                    (min (k + 1) (min (len - readSz) fd.input.length))).map Xfer.inp }
        (buf.store readSz (fd.input.take (min (k + 1) (min (len - readSz) fd.input.length))))
        (readSz + min (k + 1) (min (len - readSz) fd.input.length)) := by
  simp only [readFromFd_loop, hlt, if_true, hev, hpos, if_false]

/-- One `read` interrupted by a signal, followed by the rest of the loop. -/
theorem readFromFd_loop_eintr (len : Nat) (fuel : Nat) (fd : Sock) (buf : Mem) (readSz : Nat)
    (hlt : readSz < len) (hev : fd.rd fd.nrd = ReadEv.eintr) :
    readFromFd_loop len (fuel + 1) fd buf readSz =
      readFromFd_loop len fuel { fd with nrd := fd.nrd + 1 } buf readSz := by
  simp only [readFromFd_loop, hlt, if_true, hev]

/-- Totality and result of the loop of `readFromFd` on a socket that holds the bytes
asked for: when no `read` fails with an error other than EINTR and data keeps being
delivered after every interruption, the loop ends, returns `len`, has copied exactly the
missing bytes to the buffer and has taken exactly these from the socket. -/
theorem readFromFd_loop_complete (len : Nat) (rd : Nat → ReadEv)
    (hnoerr : ∀ i, rd i ≠ ReadEv.error)
    (hfair : ∀ i, ∃ j, i ≤ j ∧ ∃ k, rd j = ReadEv.data k) :
    ∀ (n : Nat) (chunk rest : List Byte) (fd : Sock) (buf : Mem) (readSz : Nat),
      chunk.length = n → fd.rd = rd → fd.input = chunk ++ rest → readSz + n = len →
      ∃ fuel0 nrd1, ∀ fuel, fuel0 ≤ fuel →
        readFromFd_loop len fuel fd buf readSz =
          some ((len : Int), buf.store readSz chunk,
            { fd with input := rest, nrd := nrd1,
                      trace := fd.trace ++ chunk.map Xfer.inp }) := by
  intro n
  induction n using Nat.strong_induction_on with
  | _ n ih =>
    intro chunk rest fd buf readSz hlen hrd hin hsz
    by_cases hn : n = 0
    · subst hn
      have hc : chunk = [] := List.length_eq_zero.mp hlen
      subst hc
      refine ⟨1, fd.nrd, ?_⟩
      intro fuel hf
      obtain ⟨f, rfl⟩ : ∃ f, fuel = f + 1 := ⟨fuel - 1, by omega⟩
      have hnl : ¬ readSz < len := by omega
      have hrl : readSz = len := by omega
      simp only [readFromFd_loop, hnl, if_false, Mem.store_nil, List.map_nil, List.append_nil]
      subst hrl
      cases fd
      simp only [List.nil_append] at hin
      simp [hin]
    · have hlt : readSz < len := by omega
      have progress : ∀ (fd : Sock) (k : Nat), fd.rd = rd → fd.input = chunk ++ rest →
          rd fd.nrd = ReadEv.data k →
          ∃ fuel0 nrd1, ∀ fuel, fuel0 ≤ fuel →
            readFromFd_loop len fuel fd buf readSz =
              some ((len : Int), buf.store readSz chunk,
                { fd with input := rest, nrd := nrd1,
                          trace := fd.trace ++ chunk.map Xfer.inp }) := by
        intro fd k hrd hin hk
        have hszeq : min (k + 1) (min (len - readSz) fd.input.length) = min (k + 1) n := by
          rw [hin, List.length_append, hlen]
          omega
        have hle : min (k + 1) n ≤ chunk.length := by omega
        have hpos : min (k + 1) n ≠ 0 := by omega
        have htake : fd.input.take (min (k + 1) n) = chunk.take (min (k + 1) n) := by
          rw [hin, List.take_append_of_le_length hle]
        have hdrop : fd.input.drop (min (k + 1) n) = chunk.drop (min (k + 1) n) ++ rest := by
          rw [hin, List.drop_append_of_le_length hle]
        obtain ⟨fuel0, nrd1, hrun⟩ := ih (n - min (k + 1) n) (by omega)
          (chunk.drop (min (k + 1) n)) rest
          { fd with nrd := fd.nrd + 1,
                    input := fd.input.drop (min (k + 1) n),
                    trace := fd.trace ++ (fd.input.take (min (k + 1) n)).map Xfer.inp }
          (buf.store readSz (fd.input.take (min (k + 1) n)))
          (readSz + min (k + 1) n)
          (by rw [List.length_drop, hlen]) hrd hdrop (by omega)
        refine ⟨fuel0 + 1, nrd1, ?_⟩
        intro fuel hf
        obtain ⟨f, rfl⟩ : ∃ f, fuel = f + 1 := ⟨fuel - 1, by omega⟩
        rw [readFromFd_loop_data len f fd buf readSz k hlt (by rw [hrd]; exact hk)
          (by rw [hszeq]; exact hpos)]
        simp only [hszeq]
        rw [hrun f (by omega)]
        have hlen2 : (chunk.take (min (k + 1) n)).length = min (k + 1) n := by
          rw [List.length_take]
          omega
        have hst : (buf.store readSz (fd.input.take (min (k + 1) n))).store
            (readSz + min (k + 1) n) (chunk.drop (min (k + 1) n)) = buf.store readSz chunk := by
          rw [htake]
          have := Mem.store_store buf readSz (chunk.take (min (k + 1) n))
            (chunk.drop (min (k + 1) n))
          rw [hlen2, List.take_append_drop] at this
          exact this
        rw [hst, htake]
        simp only [List.append_assoc, ← List.map_append, List.take_append_drop]
      have inner : ∀ (d : Nat) (fd : Sock), fd.rd = rd → fd.input = chunk ++ rest →
          (∃ k, rd (fd.nrd + d) = ReadEv.data k) →
          ∃ fuel0 nrd1, ∀ fuel, fuel0 ≤ fuel →
            readFromFd_loop len fuel fd buf readSz =
              some ((len : Int), buf.store readSz chunk,
                { fd with input := rest, nrd := nrd1,
                          trace := fd.trace ++ chunk.map Xfer.inp }) := by
        intro d
        induction d with
        | zero =>
          intro fd hrd hin hk
          obtain ⟨k, hk⟩ := hk
          exact progress fd k hrd hin hk
        | succ d ihd =>
          intro fd hrd hin hk
          cases hev : rd fd.nrd with
          | data k => exact progress fd k hrd hin hev
          | error => exact absurd hev (hnoerr fd.nrd)
          | eintr =>
            obtain ⟨fuel0, nrd1, hrun⟩ := ihd { fd with nrd := fd.nrd + 1 } hrd hin
              (by
                obtain ⟨k, hk⟩ := hk
                exact ⟨k, by
                  show rd (fd.nrd + 1 + d) = ReadEv.data k
                  rw [show fd.nrd + 1 + d = fd.nrd + (d + 1) by omega]
                  exact hk⟩)
            refine ⟨fuel0 + 1, nrd1, ?_⟩
            intro fuel hf
            obtain ⟨f, rfl⟩ : ∃ f, fuel = f + 1 := ⟨fuel - 1, by omega⟩
            rw [readFromFd_loop_eintr len f fd buf readSz hlt (by rw [hrd]; exact hev)]
            rw [hrun f (by omega)]
      obtain ⟨j, hj, k, hk⟩ := hfair fd.nrd
      exact inner (j - fd.nrd) fd hrd hin
        ⟨k, by rw [show fd.nrd + (j - fd.nrd) = j by omega]; exact hk⟩

theorem loadU32_encodeLE32 (m : Mem) (L : Nat) :
    loadU32 (m.store 0 (encodeLE32 L)) = L % 2 ^ 32 := by
  simp only [encodeLE32, util_ToFromLE32, BYTE_ORDER, storeU32]
  rw [loadU32_store]
  simp only [Fin.ofNat]
  omega

theorem encodeLE32_length (L : Nat) : (encodeLE32 L).length = 4 := by
  simp [encodeLE32, storeU32]

/-- Totality and result of `writeToFd` on the one-byte marker: when no `write` fails
with an error other than EINTR and a `write` that accepts at least one byte follows
every interruption, the call returns true and has written exactly that byte. -/
theorem writeToFd_marker_complete (b : Byte) (wr : Nat → WriteEv)
    (hnoerr : ∀ i, wr i ≠ WriteEv.error) :
    ∀ (d : Nat) (fd : Sock), fd.wr = wr → (∃ k, wr (fd.nwr + d) = WriteEv.accept (k + 1)) →
      ∃ fuel0 nwr1, ∀ fuel, fuel0 ≤ fuel →
        writeToFd_loop [b] 1 fuel fd 0 =
          some (true, { fd with nwr := nwr1, trace := fd.trace ++ [Xfer.out b] }) := by
  have progress : ∀ (fd : Sock) (k : Nat), fd.wr = wr → wr fd.nwr = WriteEv.accept (k + 1) →
      ∃ fuel0 nwr1, ∀ fuel, fuel0 ≤ fuel →
        writeToFd_loop [b] 1 fuel fd 0 =
          some (true, { fd with nwr := nwr1, trace := fd.trace ++ [Xfer.out b] }) := by
    intro fd k hwr hk
    refine ⟨2, fd.nwr + 1, ?_⟩
    intro fuel hf
    obtain ⟨f, rfl⟩ : ∃ f, fuel = f + 2 := ⟨fuel - 2, by omega⟩
    have hev : fd.wr fd.nwr = WriteEv.accept (k + 1) := by rw [hwr]; exact hk
    have hmin : min (k + 1) 1 = 1 := by omega
    simp [writeToFd_loop, hev, hmin]
  intro d
  induction d with
  | zero =>
    intro fd hwr hk
    obtain ⟨k, hk⟩ := hk
    exact progress fd k hwr hk
  | succ d ihd =>
    intro fd hwr hk
    have hk1 : ∃ k, wr (fd.nwr + 1 + d) = WriteEv.accept (k + 1) := by
      obtain ⟨k, hk⟩ := hk
      exact ⟨k, by rw [show fd.nwr + 1 + d = fd.nwr + (d + 1) by omega]; exact hk⟩
    cases hev : wr fd.nwr with
    | error => exact absurd hev (hnoerr fd.nwr)
    | eintr =>
      obtain ⟨fuel0, nwr1, hrun⟩ := ihd { fd with nwr := fd.nwr + 1 } hwr hk1
      refine ⟨fuel0 + 1, nwr1, ?_⟩
      intro fuel hf
      obtain ⟨f, rfl⟩ : ∃ f, fuel = f + 1 := ⟨fuel - 1, by omega⟩
      have hev1 : fd.wr fd.nwr = WriteEv.eintr := by rw [hwr]; exact hev
      have hstep : writeToFd_loop [b] 1 (f + 1) fd 0 =
          writeToFd_loop [b] 1 f { fd with nwr := fd.nwr + 1 } 0 := by
        simp [writeToFd_loop, hev1]
      rw [hstep, hrun f (by omega)]
    | accept m =>
      cases m with
      | succ k => exact progress fd k hwr hev
      | zero =>
        obtain ⟨fuel0, nwr1, hrun⟩ := ihd { fd with nwr := fd.nwr + 1 } hwr hk1
        refine ⟨fuel0 + 1, nwr1, ?_⟩
        intro fuel hf
        obtain ⟨f, rfl⟩ : ∃ f, fuel = f + 1 := ⟨fuel - 1, by omega⟩
        have hev1 : fd.wr fd.nwr = WriteEv.accept 0 := by rw [hwr]; exact hev
        have hstep : writeToFd_loop [b] 1 (f + 1) fd 0 =
            writeToFd_loop [b] 1 f { fd with nwr := fd.nwr + 1 } 0 := by
          simp [writeToFd_loop, hev1]
        rw [hstep, hrun f (by omega)]

/-- C8. When the socket holds the 4-byte little-endian encoding of `L ≤ 16 MiB`
followed by `L` payload bytes (and then anything), `HF_ITER` returns with
`*len_ptr = L` and a buffer whose first `L` bytes are the payload, having read exactly
these `4 + L` bytes: this for every way the kernel cuts the stream into `read` results
and every finite run of EINTR between them, and, on a call that has a completion
marker to send first, provided the marker can be written. -/
theorem HF_ITER_receives (L : Nat) (payload rest : List Byte) (st : persistent_t)
    (hL : L ≤ 16777216) (hpl : payload.length = L)
    (hin : st.fd.input = encodeLE32 L ++ payload ++ rest)
    (hrd_noerr : ∀ i, st.fd.rd i ≠ ReadEv.error)
    (hrd_fair : ∀ i, ∃ j, i ≤ j ∧ ∃ k, st.fd.rd j = ReadEv.data k)
    (hwr : st.initialized = true →
      (∀ i, st.fd.wr i ≠ WriteEv.error) ∧
      ∀ i, ∃ j, i ≤ j ∧ ∃ k, st.fd.wr j = WriteEv.accept (k + 1)) :
    ∃ fuel0 st1, ∀ fuel, fuel0 ≤ fuel →
      HF_ITER fuel st = some (iter_t.returned st1 L) ∧
      (∀ i (h : i < payload.length), st1.buf i = payload.get ⟨i, h⟩) ∧
      st1.fd.input = rest ∧
      st1.fd.trace = st.fd.trace ++ (if st.initialized then [Xfer.out 0x41] else [])
        ++ (encodeLE32 L ++ payload).map Xfer.inp ∧
      (encodeLE32 L ++ payload).length = 4 + L := by
  -- the completion marker, if any
  have hmark : ∃ fw fd1, (∀ fuel, fw ≤ fuel →
        (if st.initialized then writeToFd fuel st.fd [0x41] 1 else some (true, st.fd)) =
          some (true, fd1)) ∧
      fd1.input = st.fd.input ∧ fd1.rd = st.fd.rd ∧
      fd1.trace = st.fd.trace ++ (if st.initialized then [Xfer.out 0x41] else []) := by
    cases hi : st.initialized with
    | false => exact ⟨0, st.fd, fun _ _ => by simp, rfl, rfl, by simp⟩
    | true =>
      obtain ⟨hne, hfa⟩ := hwr hi
      obtain ⟨j, hj, k, hk⟩ := hfa st.fd.nwr
      obtain ⟨fw, nwr1, hrun⟩ := writeToFd_marker_complete 0x41 st.fd.wr hne
        (j - st.fd.nwr) st.fd rfl
        ⟨k, by rw [show st.fd.nwr + (j - st.fd.nwr) = j by omega]; exact hk⟩
      refine ⟨fw, { st.fd with nwr := nwr1, trace := st.fd.trace ++ [Xfer.out 0x41] },
        fun fuel hf => ?_, rfl, rfl, by simp⟩
      simp only [if_true, writeToFd]
      exact hrun fuel hf
  obtain ⟨fw, fd1, hw, hin1, hrd1, htr1⟩ := hmark
  -- the length prefix
  obtain ⟨f1, nrd1, h1⟩ := readFromFd_loop_complete 4 st.fd.rd hrd_noerr hrd_fair 4
    (encodeLE32 L) (payload ++ rest) fd1 (fun _ => 0) 0 (encodeLE32_length L) hrd1
    (by rw [hin1, hin, List.append_assoc]) (by omega)
  have hlen : loadU32 (Mem.store (fun _ => 0) 0 (encodeLE32 L)) = L := by
    rw [loadU32_encodeLE32]
    exact Nat.mod_eq_of_lt (by omega)
  -- the payload
  obtain ⟨f2, nrd2, h2⟩ := readFromFd_loop_complete L st.fd.rd hrd_noerr hrd_fair L
    payload rest
    { fd1 with input := payload ++ rest, nrd := nrd1,
               trace := fd1.trace ++ (encodeLE32 L).map Xfer.inp }
    st.buf 0 hpl hrd1 rfl (by omega)
  refine ⟨max fw (max f1 f2),
    { initialized := true, buf := st.buf.store 0 payload,
      fd := { fd1 with input := rest, nrd := nrd2,
                       trace := (fd1.trace ++ (encodeLE32 L).map Xfer.inp)
                         ++ payload.map Xfer.inp } },
    fun fuel hf => ⟨?_, ?_, ?_, ?_, ?_⟩⟩
  · have hb : ¬ (L > _HF_PERF_BITMAP_SIZE_16M) := by
      unfold _HF_PERF_BITMAP_SIZE_16M
      omega
    have hlt : ¬ (_HF_PERF_BITMAP_SIZE_16M < L) := hb
    simp only [HF_ITER, hw fuel (by omega), readFromFdAll, readFromFd, h1 fuel (by omega),
      Option.map_some']
    simp only [Nat.cast_ofNat, beq_self_eq_true, gt_iff_lt, hlen, hlt, if_false,
      h2 fuel (by omega), Option.map_some', List.append_assoc]
  · intro i h
    exact Mem.store_prefix st.buf payload i h
  · rfl
  · show (fd1.trace ++ (encodeLE32 L).map Xfer.inp) ++ payload.map Xfer.inp = _
    rw [htr1]
    simp [List.append_assoc]
  · rw [List.length_append, encodeLE32_length, hpl]

theorem HF_ITER_receives_witness :
    (2 ≤ 16777216 ∧ ([7, 8] : List Byte).length = 2 ∧
      (demoSock (encodeLE32 2 ++ [7, 8] ++ [9])).input = encodeLE32 2 ++ [7, 8] ++ [9]) ∧
    ∃ fuel0 st1, ∀ fuel, fuel0 ≤ fuel →
      HF_ITER fuel ⟨true, fun _ => 0, demoSock (encodeLE32 2 ++ [7, 8] ++ [9])⟩ =
        some (iter_t.returned st1 2) ∧
      (∀ i (h : i < ([7, 8] : List Byte).length), st1.buf i = ([7, 8] : List Byte).get ⟨i, h⟩) ∧
      st1.fd.input = [9] ∧
      st1.fd.trace = (demoSock (encodeLE32 2 ++ [7, 8] ++ [9])).trace
        ++ (if (true : Bool) then [Xfer.out 0x41] else [])
        ++ (encodeLE32 2 ++ [7, 8]).map Xfer.inp ∧
      (encodeLE32 2 ++ ([7, 8] : List Byte)).length = 4 + 2 :=
  ⟨⟨by decide, rfl, rfl⟩,
   HF_ITER_receives 2 [7, 8] [9] ⟨true, fun _ => 0, demoSock (encodeLE32 2 ++ [7, 8] ++ [9])⟩
    (by decide) rfl rfl
    (fun i => by
      simp only [demoSock]
      split <;> simp)
    (fun i => ⟨2 * i + 1, by omega, 0, by
      simp only [demoSock]
      rw [if_neg (by omega)]⟩)
    (fun _ => ⟨fun i => by
      simp only [demoSock]
      split <;> simp,
     fun i => ⟨2 * i + 1, by omega, 0, by
      simp only [demoSock]
      rw [if_neg (by omega)]⟩⟩)⟩

/-- The marker write, when it returns true, has put exactly the marker on the socket
and has left the bytes to be read alone. -/
theorem writeToFd_marker_trace (b : Byte) :
    ∀ (fuel : Nat) (fd fd1 : Sock),
      writeToFd_loop [b] 1 fuel fd 0 = some (true, fd1) →
      fd1.trace = fd.trace ++ [Xfer.out b]
  | 0, fd, fd1, h => by simp [writeToFd_loop] at h
  | fuel + 1, fd, fd1, h => by
    cases hev : fd.wr fd.nwr with
    | error => simp [writeToFd_loop, hev] at h
    | eintr =>
      simp only [writeToFd_loop, Nat.lt_one_iff, if_true, hev] at h
      have ih := writeToFd_marker_trace b fuel _ fd1 h
      exact ih
    | accept m =>
      cases m with
      | zero =>
        simp only [writeToFd_loop, Nat.lt_one_iff, if_true, hev, Nat.zero_min, List.take_zero,
          List.map_nil, List.append_nil, Nat.add_zero] at h
        have ih := writeToFd_marker_trace b fuel _ fd1 h
        exact ih
      | succ k =>
        have hmin : min (k + 1) (1 - 0) = 1 := by omega
        simp only [writeToFd_loop, Nat.lt_one_iff, if_true, hev, hmin] at h
        cases fuel with
        | zero => simp [writeToFd_loop] at h
        | succ f =>
          simp [writeToFd_loop] at h
          rw [← h]

/-- Whatever the loop of `readFromFd` returns, it has only added bytes read to the
transfers on the socket. -/
theorem readFromFd_loop_trace (len : Nat) :
    ∀ (fuel : Nat) (fd : Sock) (buf : Mem) (readSz : Nat) (r : Int × Mem × Sock),
      readFromFd_loop len fuel fd buf readSz = some r →
      ∃ ins : List Byte, r.2.2.trace = fd.trace ++ ins.map Xfer.inp
  | 0, fd, buf, readSz, r, h => by simp [readFromFd_loop] at h
  | fuel + 1, fd, buf, readSz, r, h => by
    by_cases hlt : readSz < len
    · cases hev : fd.rd fd.nrd with
      | error =>
        simp only [readFromFd_loop, hlt, if_true, hev, Option.some.injEq] at h
        exact ⟨[], by rw [← h]; simp⟩
      | eintr =>
        simp only [readFromFd_loop, hlt, if_true, hev] at h
        have ih := readFromFd_loop_trace len fuel _ buf readSz r h
        exact ih
      | data k =>
        simp only [readFromFd_loop, hlt, if_true, hev] at h
        by_cases hz : min (k + 1) (min (len - readSz) fd.input.length) = 0
        · simp only [hz, if_true, Option.some.injEq] at h
          exact ⟨[], by rw [← h]; simp⟩
        · simp only [hz, if_false] at h
          obtain ⟨ins, hins⟩ := readFromFd_loop_trace len fuel _ _ _ r h
          exact ⟨fd.input.take (min (k + 1) (min (len - readSz) fd.input.length)) ++ ins, by
            rw [hins]; simp⟩
    · simp only [readFromFd_loop, hlt, if_false, Option.some.injEq] at h
      exact ⟨[], by rw [← h]; simp⟩

theorem readFromFdAll_trace (fuel : Nat) (fd : Sock) (buf : Mem) (len : Nat)
    (r : Bool × Mem × Sock) (h : readFromFdAll fuel fd buf len = some r) :
    ∃ ins : List Byte, r.2.2.trace = fd.trace ++ ins.map Xfer.inp := by
  unfold readFromFdAll readFromFd at h
  cases hr : readFromFd_loop len fuel fd buf 0 with
  | none => simp [hr] at h
  | some q =>
    simp only [hr, Option.map_some', Option.some.injEq] at h
    obtain ⟨ins, hins⟩ := readFromFd_loop_trace len fuel fd buf 0 q hr
    exact ⟨ins, by rw [← h]; exact hins⟩

/-- A call of `HF_ITER` that returns leaves `initialized` set, and its transfers on the
socket are: the marker first if `initialized` was set on entry, then bytes read. -/
theorem HF_ITER_returned_trace (fuel : Nat) (st st1 : persistent_t) (len : Nat)
    (h : HF_ITER fuel st = some (iter_t.returned st1 len)) :
    st1.initialized = true ∧
    ∃ ins : List Byte, st1.fd.trace =
      st.fd.trace ++ (if st.initialized then [Xfer.out 0x41] else []) ++ ins.map Xfer.inp := by
  unfold HF_ITER at h
  cases hm : (if st.initialized then writeToFd fuel st.fd [0x41] 1 else some (true, st.fd)) with
  | none => simp [hm] at h
  | some p =>
    obtain ⟨ok, fd1⟩ := p
    cases ok with
    | false => simp [hm] at h
    | true =>
      have htr1 : fd1.trace = st.fd.trace ++ (if st.initialized then [Xfer.out 0x41] else []) := by
        cases hi : st.initialized with
        | false =>
          simp only [hi, Bool.false_eq_true, if_false, Option.some.injEq, Prod.mk.injEq,
            true_and] at hm
          rw [← hm]
          simp
        | true =>
          simp only [hi, if_true, writeToFd] at hm
          simpa using writeToFd_marker_trace 0x41 fuel st.fd fd1 hm
      simp only [hm] at h
      cases hr1 : readFromFdAll fuel fd1 (fun _ => 0) 4 with
      | none => simp [hr1] at h
      | some q =>
        obtain ⟨ok1, rlen, fd2⟩ := q
        obtain ⟨ins1, hins1⟩ := readFromFdAll_trace fuel fd1 _ 4 _ hr1
        cases ok1 with
        | false => simp [hr1] at h
        | true =>
          simp only [hr1] at h
          by_cases hbig : loadU32 rlen > _HF_PERF_BITMAP_SIZE_16M
          · simp [hbig] at h
          · simp only [hbig, if_false] at h
            cases hr2 : readFromFdAll fuel fd2 st.buf (loadU32 rlen) with
            | none => simp [hr2] at h
            | some q2 =>
              obtain ⟨ok2, buf2, fd3⟩ := q2
              obtain ⟨ins2, hins2⟩ := readFromFdAll_trace fuel fd2 _ _ _ hr2
              cases ok2 with
              | false => simp [hr2] at h
              | true =>
                simp only [hr2, Option.some.injEq, iter_t.returned.injEq] at h
                obtain ⟨hst, _⟩ := h
                subst hst
                refine ⟨rfl, ins1 ++ ins2, ?_⟩
                simp only at hins1 hins2
                show fd3.trace = _
                rw [hins2, hins1, htr1]
                simp

theorem HF_ITER_calls_succ_inv (fuel n : Nat) (st0 s1 : persistent_t)
    (h : HF_ITER_calls fuel (n + 1) st0 = some s1) :
    ∃ sn len, HF_ITER_calls fuel n st0 = some sn ∧
      HF_ITER fuel sn = some (iter_t.returned s1 len) := by
  simp only [HF_ITER_calls] at h
  cases hn : HF_ITER_calls fuel n st0 with
  | none => simp [hn] at h
  | some sn =>
    simp only [hn] at h
    cases hi : HF_ITER fuel sn with
    | none => simp [hi] at h
    | some r =>
      cases r with
      | exited c s => simp [hi] at h
      | returned s len =>
        simp only [hi, Option.some.injEq] at h
        subst h
        exact ⟨sn, len, rfl, hi⟩

theorem HF_ITER_calls_initial (fuel : Nat) (st0 : persistent_t) :
    ∀ (n k : Nat) (sn : persistent_t), HF_ITER_calls fuel n st0 = some sn → k ≤ n →
      ∃ sk, HF_ITER_calls fuel k st0 = some sk
  | 0, k, sn, h, hk => by
    have : k = 0 := by omega
    subst this
    exact ⟨sn, h⟩
  | n + 1, k, sn, h, hk => by
    by_cases hkn : k = n + 1
    · subst hkn
      exact ⟨sn, h⟩
    · obtain ⟨s, _, hs, _⟩ := HF_ITER_calls_succ_inv fuel n st0 sn h
      exact HF_ITER_calls_initial fuel st0 n k s hs (by omega)

theorem Sock.written_of_trace (fd fd1 : Sock) (pre : List Xfer) (ins : List Byte)
    (h : fd1.trace = fd.trace ++ pre ++ ins.map Xfer.inp) :
    fd1.written = fd.written ++
      pre.filterMap (fun x => match x with | Xfer.out b => some b | Xfer.inp _ => none) := by
  unfold Sock.written
  rw [h, List.filterMap_append, List.filterMap_append]
  have : List.filterMap (fun x => match x with | Xfer.out b => some b | Xfer.inp _ => none)
      (ins.map Xfer.inp) = [] := by
    induction ins with
    | nil => rfl
    | cons a l ih => simp [List.filterMap_cons]
  rw [this, List.append_nil]

/-- After `n` calls of `HF_ITER` that returned, starting with `initialized` clear, the
child has written `n - 1` markers, and `initialized` is set once a call has returned. -/
theorem HF_ITER_calls_written (fuel : Nat) (st0 : persistent_t)
    (h0 : st0.initialized = false) :
    ∀ (n : Nat) (sn : persistent_t), HF_ITER_calls fuel n st0 = some sn →
      (1 ≤ n → sn.initialized = true) ∧
      sn.fd.written = st0.fd.written ++ List.replicate (n - 1) (0x41 : Byte)
  | 0, sn, h => by
    simp only [HF_ITER_calls, Option.some.injEq] at h
    subst h
    simp
  | n + 1, s1, h => by
    obtain ⟨sn, len, hn, hi⟩ := HF_ITER_calls_succ_inv fuel n st0 s1 h
    obtain ⟨hinit, hw⟩ := HF_ITER_calls_written fuel st0 h0 n sn hn
    obtain ⟨h1, ins, htr⟩ := HF_ITER_returned_trace fuel sn s1 len hi
    refine ⟨fun _ => h1, ?_⟩
    rw [Sock.written_of_trace sn.fd s1.fd _ ins htr, hw]
    cases n with
    | zero =>
      simp only [HF_ITER_calls, Option.some.injEq] at hn
      subst hn
      simp [h0]
    | succ m =>
      rw [hinit (by omega)]
      simp only [if_true, List.filterMap_cons, List.filterMap_nil, Nat.add_sub_cancel,
        List.append_assoc]
      rw [show List.replicate (m + 1) (0x41 : Byte) = List.replicate m 0x41 ++ [0x41] from
        List.replicate_succ' m _]

/-- C9. Over `n` calls of `HF_ITER` that returned, in a child that starts with
`initialized` clear, the child has written exactly `n - 1` bytes to the socket, each
`'A'` (0x41).  Call by call: the first call only reads; every later call transfers one
`'A'` out and then only reads. -/
theorem HF_ITER_calls_marker (fuel n : Nat) (st0 sn : persistent_t)
    (h0 : st0.initialized = false)
    (hrun : HF_ITER_calls fuel n st0 = some sn) :
    sn.fd.written = st0.fd.written ++ List.replicate (n - 1) (0x41 : Byte) ∧
    (sn.fd.written.length = st0.fd.written.length + (n - 1)) ∧
    ∀ k, k < n → ∃ (sk sk1 : persistent_t) (ins : List Byte),
      HF_ITER_calls fuel k st0 = some sk ∧
      HF_ITER_calls fuel (k + 1) st0 = some sk1 ∧
      sk1.fd.trace = sk.fd.trace ++ (if k = 0 then [] else [Xfer.out 0x41])
        ++ ins.map Xfer.inp := by
  have hw := (HF_ITER_calls_written fuel st0 h0 n sn hrun).2
  refine ⟨hw, by rw [hw]; simp, ?_⟩
  intro k hk
  obtain ⟨sk1, hk1⟩ := HF_ITER_calls_initial fuel st0 n (k + 1) sn hrun (by omega)
  obtain ⟨sk, len, hsk, hit⟩ := HF_ITER_calls_succ_inv fuel k st0 sk1 hk1
  obtain ⟨_, ins, htr⟩ := HF_ITER_returned_trace fuel sk sk1 len hit
  refine ⟨sk, sk1, ins, hsk, hk1, ?_⟩
  rw [htr]
  cases k with
  | zero =>
    simp only [HF_ITER_calls, Option.some.injEq] at hsk
    subst hsk
    simp [h0]
  | succ m =>
    have := (HF_ITER_calls_written fuel st0 h0 (m + 1) sk hsk).1 (by omega)
    simp [this]

theorem HF_ITER_calls_marker_witness :
    demoChild.initialized = false ∧
    ∃ sn, HF_ITER_calls 16 3 demoChild = some sn ∧
      sn.fd.written = demoChild.fd.written ++ List.replicate (3 - 1) (0x41 : Byte) ∧
      (sn.fd.written.length = demoChild.fd.written.length + (3 - 1)) ∧
      ∀ k, k < 3 → ∃ (sk sk1 : persistent_t) (ins : List Byte),
        HF_ITER_calls 16 k demoChild = some sk ∧
        HF_ITER_calls 16 (k + 1) demoChild = some sk1 ∧
        sk1.fd.trace = sk.fd.trace ++ (if k = 0 then [] else [Xfer.out 0x41])
          ++ ins.map Xfer.inp := by
  have hs : (HF_ITER_calls 16 3 demoChild).isSome = true := by decide
  obtain ⟨sn, hsn⟩ := Option.isSome_iff_exists.mp hs
  exact ⟨rfl, sn, hsn, HF_ITER_calls_marker 16 3 demoChild sn rfl hsn⟩

/-- C11. The bitmap constants agree: the mask is `0x7ffffff = 2^27 - 1 =
8 * _HF_PERF_BITMAP_SIZE_16M - 1`; for every key the bit position `key & mask` has its
byte inside a map of `_HF_PERF_BITMAP_SIZE_16M` bytes; and every bit of such a map is
the position of some 64-bit key. -/
theorem bitmap_mask_covers :
    _HF_PERF_BITMAP_BITSZ_MASK = 0x7ffffff ∧
    _HF_PERF_BITMAP_BITSZ_MASK = 2 ^ 27 - 1 ∧
    _HF_PERF_BITMAP_BITSZ_MASK = 8 * _HF_PERF_BITMAP_SIZE_16M - 1 ∧
    (∀ key : Nat, (key &&& _HF_PERF_BITMAP_BITSZ_MASK) / 8 < _HF_PERF_BITMAP_SIZE_16M) ∧
    (∀ pos : Nat, pos < 8 * _HF_PERF_BITMAP_SIZE_16M →
      ∃ key : Nat, key < 2 ^ 64 ∧ key &&& _HF_PERF_BITMAP_BITSZ_MASK = pos) := by
  refine ⟨rfl, by decide, by decide, ?_, ?_⟩
  · intro key
    have h : key &&& _HF_PERF_BITMAP_BITSZ_MASK ≤ _HF_PERF_BITMAP_BITSZ_MASK :=
      Nat.and_le_right
    unfold _HF_PERF_BITMAP_BITSZ_MASK at h
    unfold _HF_PERF_BITMAP_BITSZ_MASK _HF_PERF_BITMAP_SIZE_16M
    omega
  · intro pos hpos
    unfold _HF_PERF_BITMAP_SIZE_16M at hpos
    refine ⟨pos, by omega, ?_⟩
    have hm : _HF_PERF_BITMAP_BITSZ_MASK = 2 ^ 27 - 1 := by decide
    rw [hm, Nat.and_pow_two_sub_one_eq_mod]
    exact Nat.mod_eq_of_lt (by omega)

/-- Where the modulus `max - min + 1` does not wrap, `util_rndGet` gives a value, and
it lies between `min` and `max`. -/
theorem util_rndGet_range (rnd min max : Nat) (hle : min ≤ max)
    (hm : max - min + 1 < 2 ^ 64) (hmax : max < 2 ^ 64) :
    ∃ r, util_rndGet rnd min max = rnd_t.value r ∧ min ≤ r ∧ r ≤ max ∧
      r = rnd % (max - min + 1) + min := by
  have h1 : ¬ min > max := by omega
  have h2 : (max - min + 1) % UINT64_MOD = max - min + 1 := Nat.mod_eq_of_lt hm
  have h3 : rnd % (max - min + 1) < max - min + 1 := Nat.mod_lt _ (by omega)
  have h4 : (rnd % (max - min + 1) + min) % UINT64_MOD = rnd % (max - min + 1) + min :=
    Nat.mod_eq_of_lt (by unfold UINT64_MOD; omega)
  refine ⟨rnd % (max - min + 1) + min, ?_, by omega, by omega, rfl⟩
  simp only [util_rndGet, h1, if_false, h2, h4]
  rw [if_neg (by omega)]

/-- C15, the code on the full range. For `min = 0` and `max = 2^64 - 1` the modulus
`max - min + 1` is 0 in 64-bit arithmetic, whatever the random word: the call ends in
`rnd % 0` and yields no value. -/
theorem util_rndGet_full_range (rnd : Nat) :
    (0 : Nat) ≤ 2 ^ 64 - 1 ∧
    (2 ^ 64 - 1 - 0 + 1) % UINT64_MOD = 0 ∧
    util_rndGet rnd 0 (2 ^ 64 - 1) = rnd_t.undefined := by
  refine ⟨by omega, by decide, ?_⟩
  simp [util_rndGet, UINT64_MOD]

theorem util_hash_loop_zeros : ∀ n : Nat, util_hash_loop (List.replicate n 0) 0 = 0
  | 0 => rfl
  | n + 1 => by
    have h := util_hash_loop_zeros n
    simp only [List.replicate_succ, util_hash_loop]
    exact h

/-- C17. The hash of a buffer of `n` zero bytes is 0 for every `n`, the empty buffer
included, so zero-filled buffers of any two lengths have the same hash. -/
theorem util_hash_zeros (n m : Nat) :
    util_hash (List.replicate n 0) n = 0 ∧
    util_hash [] 0 = 0 ∧
    util_hash (List.replicate n 0) n = util_hash (List.replicate m 0) m := by
  have h : ∀ k : Nat, util_hash (List.replicate k 0) k = 0 := by
    intro k
    unfold util_hash
    rw [List.take_of_length_le (by simp)]
    exact util_hash_loop_zeros k
  exact ⟨h n, rfl, by rw [h n, h m]⟩

/-- The loop of `util_rndBuf` run for `n` rounds from index `i` and state `x`: index
`i + k` receives the byte of the state after `k + 1` steps, other indices are kept. -/
theorem util_rndBuf_loop_spec (a c : Nat) :
    ∀ (n i x : Nat) (buf : Mem) (j : Nat),
      util_rndBuf_loop a c n i x buf j =
        if i ≤ j ∧ j < i + n then
          (Fin.ofNat ((Nat.iterate (fun y => (a * y + c) % UINT64_MOD) (j - i + 1) x >>> 32)
            &&& 0xFF) : Byte)
        else buf j
  | 0, i, x, buf, j => by
    have : ¬ (i ≤ j ∧ j < i + 0) := by omega
    simp only [util_rndBuf_loop, this, if_false]
  | n + 1, i, x, buf, j => by
    rw [util_rndBuf_loop]
    rw [util_rndBuf_loop_spec a c n (i + 1) ((a * x + c) % UINT64_MOD) _ j]
    by_cases h1 : i + 1 ≤ j ∧ j < i + 1 + n
    · have h2 : i ≤ j ∧ j < i + (n + 1) := by omega
      rw [if_pos h1, if_pos h2]
      have e : j - i + 1 = (j - (i + 1) + 1) + 1 := by omega
      rw [e]
      simp only [Function.iterate_succ_apply]
    · rw [if_neg h1]
      by_cases h3 : j = i
      · subst h3
        have h2 : j ≤ j ∧ j < j + (n + 1) := by omega
        rw [if_pos h2]
        simp
      · have h2 : ¬ (i ≤ j ∧ j < i + (n + 1)) := by omega
        rw [if_neg h2]
        simp [h3]

theorem lcg_eq_iterate (seed : Nat) :
    ∀ k : Nat, lcg seed k =
      Nat.iterate (fun y => (6364136223846793005 * y + 1442695040888963407) % UINT64_MOD) k seed
  | 0 => rfl
  | k + 1 => by
    rw [Function.iterate_succ_apply', ← lcg_eq_iterate seed k]
    rfl

/-- C13. For every `sz` and every random word, `util_rndBuf` seeds the generator with
`x_0 = util_rndGet(0, 2^60)`, writes `buf[i] = (x_(i+1) >> 32) & 0xFF` for `i < sz` with
`x_(k+1) = (6364136223846793005 * x_k + 1442695040888963407) mod 2^64`, and writes
nothing else.  The bytes written depend on the seed and the index only: not on the
buffer, and not on `sz`, so a shorter run from the same seed gives a prefix. -/
theorem util_rndBuf_lcg (rnd : Nat) (buf : Mem) (sz : Nat) :
    ∃ x0 out,
      util_rndGet rnd 0 (2 ^ 60) = rnd_t.value x0 ∧ x0 ≤ 2 ^ 60 ∧
      util_rndBuf rnd buf sz = some out ∧
      (∀ i, i < sz → (out i).val = (lcg x0 (i + 1) >>> 32) &&& 0xFF) ∧
      (∀ i, sz ≤ i → out i = buf i) ∧
      (∀ (buf2 : Mem) (m : Nat), m ≤ sz →
        ∃ out2, util_rndBuf rnd buf2 m = some out2 ∧ ∀ i, i < m → out2 i = out i) := by
  obtain ⟨x0, hx0, _, hle, _⟩ := util_rndGet_range rnd 0 (2 ^ 60) (by omega) (by omega) (by omega)
  have hrun : ∀ (b : Mem) (n : Nat), util_rndBuf rnd b n =
      some (util_rndBuf_loop 6364136223846793005 1442695040888963407 n 0 x0 b) := by
    intro b n
    simp only [util_rndBuf, hx0]
  refine ⟨x0, _, hx0, hle, hrun buf sz, ?_, ?_, ?_⟩
  · intro i hi
    rw [util_rndBuf_loop_spec]
    have h : 0 ≤ i ∧ i < 0 + sz := by omega
    rw [if_pos h, lcg_eq_iterate]
    simp only [Nat.sub_zero, Fin.ofNat]
    have hb : (Nat.iterate
        (fun y => (6364136223846793005 * y + 1442695040888963407) % UINT64_MOD) (i + 1) x0
        >>> 32) &&& 0xFF ≤ 0xFF := Nat.and_le_right
    exact Nat.mod_eq_of_lt (by omega)
  · intro i hi
    rw [util_rndBuf_loop_spec]
    have h : ¬ (0 ≤ i ∧ i < 0 + sz) := by omega
    rw [if_neg h]
  · intro buf2 m hm
    refine ⟨_, hrun buf2 m, ?_⟩
    intro i hi
    rw [util_rndBuf_loop_spec, util_rndBuf_loop_spec]
    have h1 : 0 ≤ i ∧ i < 0 + m := by omega
    have h2 : 0 ≤ i ∧ i < 0 + sz := by omega
    rw [if_pos h1, if_pos h2]

/-- C14. For `size ≥ 1`, a string `str` shorter than `size` and any formatted text,
`util_ssnprintf` leaves in the buffer the first `size - 1` characters of `str` followed
by the text: `str` stays as the beginning, the new length is at most `size - 1` (8191
for a buffer of `_HF_REPORT_SIZE`), and the value returned is the length of `str` plus
that of the text cut to `size - 1`.  `util_vssnprintf` gives the same. -/
theorem util_ssnprintf_appends (str : CStr) (size : Nat) (out : CStr)
    (hsize : 1 ≤ size) (hlen : str.length < size) :
    ∃ ret res,
      util_ssnprintf str size out = some (ret, res) ∧
      ret = ((str.length + (out.take (size - 1)).length : Nat) : Int) ∧
      res = (str ++ out).take (size - 1) ∧
      str <+: res ∧
      res.length ≤ size - 1 ∧
      (size = _HF_REPORT_SIZE → res.length ≤ 8191) ∧
      util_vssnprintf str size out = util_ssnprintf str size out := by
  have h0 : size ≠ 0 := by omega
  have hres : ((str ++ out.take (size - 1)).take (size - 1)) = (str ++ out).take (size - 1) := by
    rw [List.take_append_eq_append_take, List.take_append_eq_append_take, List.take_take]
    congr 2
    omega
  refine ⟨((str ++ out.take (size - 1)).length : Int), (str ++ out).take (size - 1),
    ?_, by rw [List.length_append], rfl, ?_, ?_, ?_, rfl⟩
  · simp only [util_ssnprintf, h0, if_false, strncpy, hlen, if_true, snprintf, hres]
  · rw [List.take_append_eq_append_take, List.take_of_length_le (by omega)]
    exact List.prefix_append _ _
  · rw [List.length_take]
    omega
  · intro hs
    rw [List.length_take, hs]
    unfold _HF_REPORT_SIZE
    omega

theorem util_ssnprintf_appends_witness :
    (1 ≤ 8 ∧ "ab".toList.length < 8) ∧
    ∃ ret res,
      util_ssnprintf "ab".toList 8 "cdefghij".toList = some (ret, res) ∧
      ret = (("ab".toList.length + ("cdefghij".toList.take (8 - 1)).length : Nat) : Int) ∧
      res = ("ab".toList ++ "cdefghij".toList).take (8 - 1) ∧
      "ab".toList <+: res ∧
      res.length ≤ 8 - 1 ∧
      (8 = _HF_REPORT_SIZE → res.length ≤ 8191) ∧
      util_vssnprintf "ab".toList 8 "cdefghij".toList =
        util_ssnprintf "ab".toList 8 "cdefghij".toList :=
  ⟨⟨by decide, by decide⟩,
   util_ssnprintf_appends "ab".toList 8 "cdefghij".toList (by decide) (by decide)⟩

/-- The appending `snprintf` of the example above, evaluated: `ab` followed by
`cdefghij` in a buffer of 8 chars gives `abcdefg`, and the value returned is 9. -/
theorem util_ssnprintf_example :
    util_ssnprintf "ab".toList 8 "cdefghij".toList = some (9, "abcdefg".toList) := by
  decide

/-- C12. In dry-run mode (`origFlipRate == 0` and `useVerifier` on), for each of the
five interesting signals the path handed to the artifact write is
`fuzzer->origFileName` (its first `PATH_MAX - 1` characters, so all of it for a file
name the platform accepts): no `workDir`, signal name, PID or time enters it, hence
any two dry-run workers with the same `origFileName` use the same name. -/
theorem arch_analyzeSignal_dryrun_name (env : Env) (w : World) (hfuzz : honggfuzz_t)
    (status : Int) (fuzzer : fuzzer_t)
    (hsig : WIFSIGNALED status = true)
    (hterm : WTERMSIG status = SIGILL ∨ WTERMSIG status = SIGFPE ∨ WTERMSIG status = SIGSEGV
      ∨ WTERMSIG status = SIGBUS ∨ WTERMSIG status = SIGABRT)
    (hdry : hfuzz.origFlipRate = 0 ∧ hfuzz.useVerifier = true) :
    ∃ hfuzz1 w1 newname ret,
      arch_analyzeSignal env w hfuzz status fuzzer = some (true, hfuzz1, w1) ∧
      w1.events = w.events ++ [Event.sancov_Analyze,
        Event.files_writeBufToFile newname (fuzzer.dynamicFile.take fuzzer.dynamicFileSz)
          (O_CREAT ||| O_EXCL ||| O_WRONLY) ret] ∧
      newname = fuzzer.origFileName.take (PATH_MAX - 1) ∧
      (fuzzer.origFileName.length ≤ PATH_MAX - 1 → newname = fuzzer.origFileName) ∧
      (∀ (hfuzz2 : honggfuzz_t) (fuzzer2 : fuzzer_t) (descr2 localtmstr2 : CStr),
        hfuzz2.origFlipRate = 0 → hfuzz2.useVerifier = true →
        fuzzer2.origFileName = fuzzer.origFileName →
        arch_newname hfuzz2 fuzzer2 descr2 localtmstr2 = newname) := by
  obtain ⟨sig, hsig1, hsig2⟩ := arch_sigs_interesting status hterm
  have hname : ∀ (h2 : honggfuzz_t) (f2 : fuzzer_t) (d t : CStr),
      h2.origFlipRate = 0 → h2.useVerifier = true →
      arch_newname h2 f2 d t = f2.origFileName.take (PATH_MAX - 1) := by
    intro h2 f2 d t hr hv
    simp [arch_newname, snprintf, hr, hv]
  have hn := hname hfuzz fuzzer sig.descr
    (env.util_getLocalTime "%F.%H:%M:%S".toList PATH_MAX env.time) hdry.1 hdry.2
  refine ⟨_, _,
    arch_newname hfuzz fuzzer sig.descr
      (env.util_getLocalTime "%F.%H:%M:%S".toList PATH_MAX env.time),
    (files_writeBufToFile (sancov_Analyze w)
      (arch_newname hfuzz fuzzer sig.descr
        (env.util_getLocalTime "%F.%H:%M:%S".toList PATH_MAX env.time))
      (fuzzer.dynamicFile.take fuzzer.dynamicFileSz) (O_CREAT ||| O_EXCL ||| O_WRONLY)).1,
    arch_analyzeSignal_crash env w hfuzz status fuzzer sig hsig hsig1 hsig2, ?_, hn, ?_, ?_⟩
  · simp [files_writeBufToFile, sancov_Analyze]
  · intro hfit
    rw [hn]
    exact List.take_of_length_le hfit
  · intro hfuzz2 fuzzer2 descr2 localtmstr2 hr hv hsame
    rw [hname hfuzz2 fuzzer2 descr2 localtmstr2 hr hv, hn, hsame]

theorem arch_analyzeSignal_dryrun_name_witness :
    (WIFSIGNALED 11 = true ∧ ((0 : ℚ) = 0 ∧ true = true)) ∧
    ∃ hfuzz1 w1 newname ret,
      arch_analyzeSignal ⟨0, fun _ _ _ => "2015-12-31.23:59:59".toList⟩ ⟨[], []⟩
        ⟨[], false, true, "fuzz".toList, "/tmp/out".toList, 0, 0, 0⟩ 11
        ⟨4242, "in/seed.bin".toList, [], [], [0xDE, 0xAD], 2⟩ = some (true, hfuzz1, w1) ∧
      w1.events = [] ++ [Event.sancov_Analyze,
        Event.files_writeBufToFile newname (([0xDE, 0xAD] : List Byte).take 2)
          (O_CREAT ||| O_EXCL ||| O_WRONLY) ret] ∧
      newname = "in/seed.bin".toList.take (PATH_MAX - 1) ∧
      ("in/seed.bin".toList.length ≤ PATH_MAX - 1 → newname = "in/seed.bin".toList) ∧
      (∀ (hfuzz2 : honggfuzz_t) (fuzzer2 : fuzzer_t) (descr2 localtmstr2 : CStr),
        hfuzz2.origFlipRate = 0 → hfuzz2.useVerifier = true →
        fuzzer2.origFileName = "in/seed.bin".toList →
        arch_newname hfuzz2 fuzzer2 descr2 localtmstr2 = newname) :=
  ⟨⟨by decide, rfl, rfl⟩,
   arch_analyzeSignal_dryrun_name ⟨0, fun _ _ _ => "2015-12-31.23:59:59".toList⟩ ⟨[], []⟩
    ⟨[], false, true, "fuzz".toList, "/tmp/out".toList, 0, 0, 0⟩ 11
    ⟨4242, "in/seed.bin".toList, [], [], [0xDE, 0xAD], 2⟩ (by decide)
    (Or.inr (Or.inr (Or.inl (by decide)))) ⟨rfl, rfl⟩⟩

theorem Mem.store_outside (m : Mem) (off : Nat) (data : List Byte) (i : Nat)
    (h : off + data.length ≤ i) : (m.store off data) i = m i := by
  have h1 : off ≤ i := by omega
  simp only [Mem.store, h1, if_true, List.get?_eq_getElem?]
  rw [List.getElem?_eq_none (by omega)]
  rfl

/-- What a finished run of the loop of `readFromFd` has done: it has taken a (possibly
empty) beginning `chunk` of the bytes on the socket and copied it to the buffer from
`readSz` on, never beyond `len`; and when the value returned is `len`, the chunk
completes the `len` bytes and no `read` of the run has failed. -/
theorem readFromFd_loop_sound (len : Nat) :
    ∀ (fuel : Nat) (fd : Sock) (buf : Mem) (readSz : Nat) (r : Int) (buf1 : Mem) (fd1 : Sock),
      readFromFd_loop len fuel fd buf readSz = some (r, buf1, fd1) → readSz ≤ len →
      fd1.rd = fd.rd ∧ fd1.wr = fd.wr ∧ fd1.nwr = fd.nwr ∧ fd.nrd ≤ fd1.nrd ∧
      ∃ chunk : List Byte, fd.input = chunk ++ fd1.input ∧ buf1 = buf.store readSz chunk ∧
        readSz + chunk.length ≤ len ∧
        (r = (len : Int) → readSz + chunk.length = len ∧
          ∀ i, fd.nrd ≤ i → i < fd1.nrd → fd.rd i ≠ ReadEv.error)
  | 0, fd, buf, readSz, r, buf1, fd1, h, _ => by simp [readFromFd_loop] at h
  | fuel + 1, fd, buf, readSz, r, buf1, fd1, h, hle => by
    by_cases hlt : readSz < len
    · cases hev : fd.rd fd.nrd with
      | error =>
        simp only [readFromFd_loop, hlt, if_true, hev, Option.some.injEq, Prod.mk.injEq] at h
        obtain ⟨hr, hb, hf⟩ := h
        subst hr hb hf
        refine ⟨rfl, rfl, rfl, by simp, [], by simp, by rw [Mem.store_nil], by simpa using hle, ?_⟩
        intro hc
        omega
      | eintr =>
        simp only [readFromFd_loop, hlt, if_true, hev] at h
        have ih := readFromFd_loop_sound len fuel _ buf readSz r buf1 fd1 h hle
        obtain ⟨h1, h2, h3, h4, chunk, h5, h6, h7, h8⟩ := ih
        refine ⟨h1, h2, h3, by simp only at h4; omega, chunk, h5, h6, h7, ?_⟩
        intro hc
        obtain ⟨h9, h10⟩ := h8 hc
        refine ⟨h9, ?_⟩
        intro i hi1 hi2
        by_cases hi : i = fd.nrd
        · rw [hi, hev]
          simp
        · exact h10 i (by simp only; omega) hi2
      | data k =>
        simp only [readFromFd_loop, hlt, if_true, hev] at h
        by_cases hz : min (k + 1) (min (len - readSz) fd.input.length) = 0
        · simp only [hz, if_true, Option.some.injEq, Prod.mk.injEq] at h
          obtain ⟨hr, hb, hf⟩ := h
          subst hr hb hf
          refine ⟨rfl, rfl, rfl, by simp, [], by simp, by rw [Mem.store_nil],
            by simpa using hle, ?_⟩
          intro hc
          omega
        · simp only [hz, if_false] at h
          have hsz : min (k + 1) (min (len - readSz) fd.input.length) ≤ fd.input.length := by
            omega
          have ih := readFromFd_loop_sound len fuel _ _ _ r buf1 fd1 h (by omega)
          obtain ⟨h1, h2, h3, h4, chunk, h5, h6, h7, h8⟩ := ih
          simp only at h1 h2 h3 h4 h5 h7 h8
          have hlen2 : (fd.input.take (min (k + 1) (min (len - readSz) fd.input.length))).length
              = min (k + 1) (min (len - readSz) fd.input.length) := by
            rw [List.length_take]
            omega
          refine ⟨h1, h2, h3, by omega,
            fd.input.take (min (k + 1) (min (len - readSz) fd.input.length)) ++ chunk,
            ?_, ?_, ?_, ?_⟩
          · rw [List.append_assoc, ← h5, List.take_append_drop]
          · rw [h6]
            have := Mem.store_store buf readSz
              (fd.input.take (min (k + 1) (min (len - readSz) fd.input.length))) chunk
            rw [hlen2] at this
            exact this
          · rw [List.length_append, hlen2]
            omega
          · intro hc
            obtain ⟨h9, h10⟩ := h8 hc
            refine ⟨by rw [List.length_append, hlen2]; omega, ?_⟩
            intro i hi1 hi2
            by_cases hi : i = fd.nrd
            · rw [hi, hev]
              simp
            · exact h10 i (by omega) hi2
    · simp only [readFromFd_loop, hlt, if_false, Option.some.injEq, Prod.mk.injEq] at h
      obtain ⟨hr, hb, hf⟩ := h
      subst hr hb hf
      refine ⟨rfl, rfl, rfl, Nat.le_refl _, [], by simp, by rw [Mem.store_nil],
        by simpa using hle, ?_⟩
      intro _
      refine ⟨by simp; omega, ?_⟩
      intro i hi1 hi2
      omega

/-- What a finished marker write has done: it leaves the reading side of the socket
alone, and when it returns true no `write` of the run has failed. -/
theorem writeToFd_marker_sound (b : Byte) :
    ∀ (fuel : Nat) (fd : Sock) (ok : Bool) (fd1 : Sock),
      writeToFd_loop [b] 1 fuel fd 0 = some (ok, fd1) →
      fd1.input = fd.input ∧ fd1.rd = fd.rd ∧ fd1.nrd = fd.nrd ∧ fd1.wr = fd.wr ∧
      fd.nwr ≤ fd1.nwr ∧
      (ok = true → ∀ i, fd.nwr ≤ i → i < fd1.nwr → fd.wr i ≠ WriteEv.error)
  | 0, fd, ok, fd1, h => by simp [writeToFd_loop] at h
  | fuel + 1, fd, ok, fd1, h => by
    cases hev : fd.wr fd.nwr with
    | error =>
      simp only [writeToFd_loop, Nat.lt_one_iff, if_true, hev, Option.some.injEq,
        Prod.mk.injEq] at h
      obtain ⟨hok, hf⟩ := h
      subst hok hf
      exact ⟨rfl, rfl, rfl, rfl, by simp, by simp⟩
    | eintr =>
      simp only [writeToFd_loop, Nat.lt_one_iff, if_true, hev] at h
      have ih := writeToFd_marker_sound b fuel _ ok fd1 h
      obtain ⟨h1, h2, h3, h4, h5, h6⟩ := ih
      simp only at h1 h2 h3 h4 h5 h6
      refine ⟨h1, h2, h3, h4, by omega, ?_⟩
      intro hok i hi1 hi2
      by_cases hi : i = fd.nwr
      · rw [hi, hev]
        simp
      · exact h6 hok i (by omega) hi2
    | accept m =>
      cases m with
      | zero =>
        simp only [writeToFd_loop, Nat.lt_one_iff, if_true, hev, Nat.zero_min, List.take_zero,
          List.map_nil, List.append_nil, Nat.add_zero] at h
        have ih := writeToFd_marker_sound b fuel _ ok fd1 h
        obtain ⟨h1, h2, h3, h4, h5, h6⟩ := ih
        simp only at h1 h2 h3 h4 h5 h6
        refine ⟨h1, h2, h3, h4, by omega, ?_⟩
        intro hok i hi1 hi2
        by_cases hi : i = fd.nwr
        · rw [hi, hev]
          simp
        · exact h6 hok i (by omega) hi2
      | succ k =>
        have hmin : min (k + 1) (1 - 0) = 1 := by omega
        simp only [writeToFd_loop, Nat.lt_one_iff, if_true, hev, hmin] at h
        cases fuel with
        | zero => simp [writeToFd_loop] at h
        | succ f =>
          simp only [writeToFd_loop, Nat.zero_add, Nat.lt_irrefl, if_false, Option.some.injEq,
            Prod.mk.injEq] at h
          obtain ⟨_, hf⟩ := h
          subst hf
          refine ⟨rfl, rfl, rfl, rfl, by simp, ?_⟩
          intro _ i hi1 hi2
          have hi : i = fd.nwr := by simp only at hi2; omega
          rw [hi, hev]
          simp

theorem readFromFdAll_inv (fuel : Nat) (fd : Sock) (buf : Mem) (len : Nat)
    (ok : Bool) (buf1 : Mem) (fd1 : Sock)
    (h : readFromFdAll fuel fd buf len = some (ok, buf1, fd1)) :
    ∃ r : Int, readFromFd_loop len fuel fd buf 0 = some (r, buf1, fd1) ∧
      (ok = true ↔ r = (len : Int)) := by
  unfold readFromFdAll readFromFd at h
  cases hr : readFromFd_loop len fuel fd buf 0 with
  | none => simp [hr] at h
  | some q =>
    obtain ⟨r, b, f⟩ := q
    simp only [hr, Option.map_some', Option.some.injEq, Prod.mk.injEq] at h
    obtain ⟨h1, h2, h3⟩ := h
    subst h2 h3
    exact ⟨r, rfl, by rw [← h1]; simp⟩

/-- Every way a call of `HF_ITER` can end.  It exits only with status 1, the static
buffer untouched from `_HF_PERF_BITMAP_SIZE_16M` on.  It returns only with a length of
at most `_HF_PERF_BITMAP_SIZE_16M`, after it has taken from the socket four bytes that
hold this length and then as many payload bytes, which are then the beginning of the
buffer, the rest of the buffer untouched; and no `read` or `write` it made failed. -/
theorem HF_ITER_sound (fuel : Nat) (st : persistent_t) (r : iter_t)
    (h : HF_ITER fuel st = some r) :
    (∀ status st1, r = iter_t.exited status st1 →
      status = 1 ∧ ∀ i, _HF_PERF_BITMAP_SIZE_16M ≤ i → st1.buf i = st.buf i) ∧
    (∀ st1 len, r = iter_t.returned st1 len →
      len ≤ _HF_PERF_BITMAP_SIZE_16M ∧
      (∃ b4 payload : List Byte, st.fd.input = b4 ++ payload ++ st1.fd.input ∧
        b4.length = 4 ∧ loadU32 (Mem.store (fun _ => 0) 0 b4) = len ∧
        payload.length = len ∧ st1.buf = st.buf.store 0 payload) ∧
      (∀ i, st.fd.nrd ≤ i → i < st1.fd.nrd → st.fd.rd i ≠ ReadEv.error) ∧
      (∀ i, st.fd.nwr ≤ i → i < st1.fd.nwr → st.fd.wr i ≠ WriteEv.error)) := by
  unfold HF_ITER at h
  cases hm : (if st.initialized then writeToFd fuel st.fd [0x41] 1 else some (true, st.fd)) with
  | none => simp [hm] at h
  | some p =>
    obtain ⟨ok, fd1⟩ := p
    cases ok with
    | false =>
      simp only [hm, Option.some.injEq] at h
      subst h
      refine ⟨?_, ?_⟩
      · intro status st1 he
        simp only [iter_t.exited.injEq] at he
        obtain ⟨h1, h2⟩ := he
        subst h2
        exact ⟨h1.symm, fun _ _ => rfl⟩
      · intro st1 len he
        simp at he
    | true =>
      have hw : fd1.input = st.fd.input ∧ fd1.rd = st.fd.rd ∧ fd1.nrd = st.fd.nrd ∧
          fd1.wr = st.fd.wr ∧ st.fd.nwr ≤ fd1.nwr ∧
          (∀ i, st.fd.nwr ≤ i → i < fd1.nwr → st.fd.wr i ≠ WriteEv.error) := by
        cases hi : st.initialized with
        | false =>
          simp only [hi, Bool.false_eq_true, if_false, Option.some.injEq, Prod.mk.injEq,
            true_and] at hm
          subst hm
          exact ⟨rfl, rfl, rfl, rfl, Nat.le_refl _, fun i h1 h2 => by omega⟩
        | true =>
          simp only [hi, if_true, writeToFd] at hm
          obtain ⟨h1, h2, h3, h4, h5, h6⟩ := writeToFd_marker_sound 0x41 fuel st.fd true fd1 hm
          exact ⟨h1, h2, h3, h4, h5, h6 rfl⟩
      obtain ⟨hw1, hw2, hw3, hw4, hw5, hw6⟩ := hw
      simp only [hm] at h
      cases hr1 : readFromFdAll fuel fd1 (fun _ => 0) 4 with
      | none => simp [hr1] at h
      | some q =>
        obtain ⟨ok1, rlen, fd2⟩ := q
        cases ok1 with
        | false =>
          simp only [hr1, Option.some.injEq] at h
          subst h
          refine ⟨?_, ?_⟩
          · intro status st1 he
            simp only [iter_t.exited.injEq] at he
            obtain ⟨h1, h2⟩ := he
            subst h2
            exact ⟨h1.symm, fun _ _ => rfl⟩
          · intro st1 len he
            simp at he
        | true =>
          obtain ⟨r1, hl1, hok1⟩ := readFromFdAll_inv fuel fd1 _ 4 true rlen fd2 hr1
          obtain ⟨ha1, ha2, ha3, ha4, b4, ha5, ha6, ha7, ha8⟩ :=
            readFromFd_loop_sound 4 fuel fd1 _ 0 r1 rlen fd2 hl1 (by omega)
          obtain ⟨ha9, ha10⟩ := ha8 (hok1.mp rfl)
          simp only [hr1] at h
          by_cases hbig : loadU32 rlen > _HF_PERF_BITMAP_SIZE_16M
          · simp only [hbig, if_true, Option.some.injEq] at h
            subst h
            refine ⟨?_, ?_⟩
            · intro status st1 he
              simp only [iter_t.exited.injEq] at he
              obtain ⟨h1, h2⟩ := he
              subst h2
              exact ⟨h1.symm, fun _ _ => rfl⟩
            · intro st1 len he
              simp at he
          · simp only [hbig, if_false] at h
            cases hr2 : readFromFdAll fuel fd2 st.buf (loadU32 rlen) with
            | none => simp [hr2] at h
            | some q2 =>
              obtain ⟨ok2, buf2, fd3⟩ := q2
              obtain ⟨r2, hl2, hok2⟩ := readFromFdAll_inv fuel fd2 _ _ ok2 buf2 fd3 hr2
              obtain ⟨hb1, hb2, hb3, hb4, payload, hb5, hb6, hb7, hb8⟩ :=
                readFromFd_loop_sound (loadU32 rlen) fuel fd2 _ 0 r2 buf2 fd3 hl2 (by omega)
              cases ok2 with
              | false =>
                simp only [hr2, Option.some.injEq] at h
                subst h
                refine ⟨?_, ?_⟩
                · intro status st1 he
                  simp only [iter_t.exited.injEq] at he
                  obtain ⟨h1, h2⟩ := he
                  subst h2
                  refine ⟨h1.symm, ?_⟩
                  intro i hi
                  show buf2 i = st.buf i
                  rw [hb6]
                  exact Mem.store_outside st.buf 0 payload i (by omega)
                · intro st1 len he
                  simp at he
              | true =>
                obtain ⟨hb9, hb10⟩ := hb8 (hok2.mp rfl)
                simp only [hr2, Option.some.injEq] at h
                subst h
                refine ⟨?_, ?_⟩
                · intro status st1 he
                  simp at he
                · intro st1 len he
                  simp only [iter_t.returned.injEq] at he
                  obtain ⟨h1, h2⟩ := he
                  subst h1 h2
                  refine ⟨by omega, ⟨b4, payload, ?_, by omega, by rw [← ha6], by omega, hb6⟩,
                    ?_, ?_⟩
                  · show st.fd.input = b4 ++ payload ++ fd3.input
                    rw [← hw1, ha5, hb5, List.append_assoc]
                  · intro i hi1 hi2
                    rw [← hw2]
                    by_cases hi : i < fd2.nrd
                    · exact ha10 i (by omega) hi
                    · rw [← ha1]
                      exact hb10 i (by omega) hi2
                  · intro i hi1 hi2
                    have : fd3.nwr = fd1.nwr := by rw [hb3, ha3]
                    exact hw6 i hi1 (by simp only at hi2; omega)

/-- The loop of `readFromFd` ends, whatever is on the socket, when every run of
interrupted `read` calls is finite. -/
theorem readFromFd_loop_terminates (len : Nat) (rd : Nat → ReadEv)
    (hfair : ∀ i, ∃ j, i ≤ j ∧ rd j ≠ ReadEv.eintr) :
    ∀ (n : Nat) (fd : Sock) (buf : Mem) (readSz : Nat),
      fd.rd = rd → readSz + n = len →
      ∃ fuel0 r, ∀ fuel, fuel0 ≤ fuel → readFromFd_loop len fuel fd buf readSz = some r := by
  intro n
  induction n using Nat.strong_induction_on with
  | _ n ih =>
    intro fd buf readSz hrd hsz
    by_cases hn : n = 0
    · refine ⟨1, ((readSz : Int), buf, fd), ?_⟩
      intro fuel hf
      obtain ⟨f, rfl⟩ : ∃ f, fuel = f + 1 := ⟨fuel - 1, by omega⟩
      have hnl : ¬ readSz < len := by omega
      simp only [readFromFd_loop, hnl, if_false]
    · have hlt : readSz < len := by omega
      have stop : ∀ (fd : Sock), fd.rd = rd → rd fd.nrd ≠ ReadEv.eintr →
          ∃ fuel0 r, ∀ fuel, fuel0 ≤ fuel →
            readFromFd_loop len fuel fd buf readSz = some r := by
        intro fd hrd hne
        cases hev : rd fd.nrd with
        | eintr => exact absurd hev hne
        | error =>
          refine ⟨1, (-1, buf, { fd with nrd := fd.nrd + 1 }), ?_⟩
          intro fuel hf
          obtain ⟨f, rfl⟩ : ∃ f, fuel = f + 1 := ⟨fuel - 1, by omega⟩
          have hev1 : fd.rd fd.nrd = ReadEv.error := by rw [hrd]; exact hev
          simp only [readFromFd_loop, hlt, if_true, hev1]
        | data k =>
          have hev1 : fd.rd fd.nrd = ReadEv.data k := by rw [hrd]; exact hev
          by_cases hz : min (k + 1) (min (len - readSz) fd.input.length) = 0
          · refine ⟨1, ((readSz : Int), buf, { fd with nrd := fd.nrd + 1 }), ?_⟩
            intro fuel hf
            obtain ⟨f, rfl⟩ : ∃ f, fuel = f + 1 := ⟨fuel - 1, by omega⟩
            simp only [readFromFd_loop, hlt, if_true, hev1, hz]
          · obtain ⟨fuel0, r, hrun⟩ :=
              ih (n - min (k + 1) (min (len - readSz) fd.input.length)) (by omega)
                { fd with nrd := fd.nrd + 1,
                          input := fd.input.drop
                            (min (k + 1) (min (len - readSz) fd.input.length)),
                          trace := fd.trace ++ (fd.input.take
                            (min (k + 1) (min (len - readSz) fd.input.length))).map Xfer.inp }
                (buf.store readSz
                  (fd.input.take (min (k + 1) (min (len - readSz) fd.input.length))))
                (readSz + min (k + 1) (min (len - readSz) fd.input.length))
                hrd (by omega)
            refine ⟨fuel0 + 1, r, ?_⟩
            intro fuel hf
            obtain ⟨f, rfl⟩ : ∃ f, fuel = f + 1 := ⟨fuel - 1, by omega⟩
            rw [readFromFd_loop_data len f fd buf readSz k hlt hev1 hz]
            exact hrun f (by omega)
      have inner : ∀ (d : Nat) (fd : Sock), fd.rd = rd → rd (fd.nrd + d) ≠ ReadEv.eintr →
          ∃ fuel0 r, ∀ fuel, fuel0 ≤ fuel →
            readFromFd_loop len fuel fd buf readSz = some r := by
        intro d
        induction d with
        | zero =>
          intro fd hrd hne
          exact stop fd hrd hne
        | succ d ihd =>
          intro fd hrd hne
          by_cases hev : rd fd.nrd = ReadEv.eintr
          · have hev1 : fd.rd fd.nrd = ReadEv.eintr := by rw [hrd]; exact hev
            obtain ⟨fuel0, r, hrun⟩ := ihd { fd with nrd := fd.nrd + 1 } hrd
              (by
                show rd (fd.nrd + 1 + d) ≠ ReadEv.eintr
                rw [show fd.nrd + 1 + d = fd.nrd + (d + 1) by omega]
                exact hne)
            refine ⟨fuel0 + 1, r, ?_⟩
            intro fuel hf
            obtain ⟨f, rfl⟩ : ∃ f, fuel = f + 1 := ⟨fuel - 1, by omega⟩
            rw [readFromFd_loop_eintr len f fd buf readSz hlt hev1]
            exact hrun f (by omega)
          · exact stop fd hrd hev
      obtain ⟨j, hj, hne⟩ := hfair fd.nrd
      exact inner (j - fd.nrd) fd hrd
        (by rw [show fd.nrd + (j - fd.nrd) = j by omega]; exact hne)

/-- The marker write ends when every run of `write` calls that are interrupted or
accept nothing is finite. -/
theorem writeToFd_marker_terminates (b : Byte) (wr : Nat → WriteEv) :
    ∀ (d : Nat) (fd : Sock), fd.wr = wr →
      (wr (fd.nwr + d) = WriteEv.error ∨ ∃ k, wr (fd.nwr + d) = WriteEv.accept (k + 1)) →
      ∃ fuel0 r, ∀ fuel, fuel0 ≤ fuel → writeToFd_loop [b] 1 fuel fd 0 = some r := by
  have stop : ∀ (fd : Sock), fd.wr = wr →
      (wr fd.nwr = WriteEv.error ∨ ∃ k, wr fd.nwr = WriteEv.accept (k + 1)) →
      ∃ fuel0 r, ∀ fuel, fuel0 ≤ fuel → writeToFd_loop [b] 1 fuel fd 0 = some r := by
    intro fd hwr hk
    rcases hk with he | ⟨k, hk⟩
    · refine ⟨1, (false, { fd with nwr := fd.nwr + 1 }), ?_⟩
      intro fuel hf
      obtain ⟨f, rfl⟩ : ∃ f, fuel = f + 1 := ⟨fuel - 1, by omega⟩
      have hev : fd.wr fd.nwr = WriteEv.error := by rw [hwr]; exact he
      simp only [writeToFd_loop, Nat.lt_one_iff, if_true, hev]
    · refine ⟨2, (true, { fd with nwr := fd.nwr + 1, trace := fd.trace ++ [Xfer.out b] }), ?_⟩
      intro fuel hf
      obtain ⟨f, rfl⟩ : ∃ f, fuel = f + 2 := ⟨fuel - 2, by omega⟩
      have hev : fd.wr fd.nwr = WriteEv.accept (k + 1) := by rw [hwr]; exact hk
      have hmin : min (k + 1) 1 = 1 := by omega
      simp [writeToFd_loop, hev, hmin]
  intro d
  induction d with
  | zero =>
    intro fd hwr hk
    exact stop fd hwr hk
  | succ d ihd =>
    intro fd hwr hk
    have hk1 : wr (fd.nwr + 1 + d) = WriteEv.error ∨
        ∃ k, wr (fd.nwr + 1 + d) = WriteEv.accept (k + 1) := by
      rw [show fd.nwr + 1 + d = fd.nwr + (d + 1) by omega]
      exact hk
    cases hev : wr fd.nwr with
    | error => exact stop fd hwr (Or.inl hev)
    | eintr =>
      obtain ⟨fuel0, r, hrun⟩ := ihd { fd with nwr := fd.nwr + 1 } hwr hk1
      refine ⟨fuel0 + 1, r, ?_⟩
      intro fuel hf
      obtain ⟨f, rfl⟩ : ∃ f, fuel = f + 1 := ⟨fuel - 1, by omega⟩
      have hev1 : fd.wr fd.nwr = WriteEv.eintr := by rw [hwr]; exact hev
      have hstep : writeToFd_loop [b] 1 (f + 1) fd 0 =
          writeToFd_loop [b] 1 f { fd with nwr := fd.nwr + 1 } 0 := by
        simp [writeToFd_loop, hev1]
      rw [hstep, hrun f (by omega)]
    | accept m =>
      cases m with
      | succ k => exact stop fd hwr (Or.inr ⟨k, hev⟩)
      | zero =>
        obtain ⟨fuel0, r, hrun⟩ := ihd { fd with nwr := fd.nwr + 1 } hwr hk1
        refine ⟨fuel0 + 1, r, ?_⟩
        intro fuel hf
        obtain ⟨f, rfl⟩ : ∃ f, fuel = f + 1 := ⟨fuel - 1, by omega⟩
        have hev1 : fd.wr fd.nwr = WriteEv.accept 0 := by rw [hwr]; exact hev
        have hstep : writeToFd_loop [b] 1 (f + 1) fd 0 =
            writeToFd_loop [b] 1 f { fd with nwr := fd.nwr + 1 } 0 := by
          simp [writeToFd_loop, hev1]
        rw [hstep, hrun f (by omega)]

/-- A call of `HF_ITER` ends, by `_exit` or by a return, when every run of interrupted
`read` calls is finite and so is every run of `write` calls that are interrupted or
accept nothing. -/
theorem HF_ITER_terminates (st : persistent_t)
    (hrd : ∀ i, ∃ j, i ≤ j ∧ st.fd.rd j ≠ ReadEv.eintr)
    (hwr : ∀ i, ∃ j, i ≤ j ∧
      (st.fd.wr j = WriteEv.error ∨ ∃ k, st.fd.wr j = WriteEv.accept (k + 1))) :
    ∃ fuel0 r, ∀ fuel, fuel0 ≤ fuel → HF_ITER fuel st = some r := by
  have hmark : ∃ fw p, ∀ fuel, fw ≤ fuel →
      (if st.initialized then writeToFd fuel st.fd [0x41] 1 else some (true, st.fd)) =
        some p := by
    cases hi : st.initialized with
    | false => exact ⟨0, (true, st.fd), fun _ _ => by simp⟩
    | true =>
      obtain ⟨j, hj, hk⟩ := hwr st.fd.nwr
      obtain ⟨fw, r, hrun⟩ := writeToFd_marker_terminates 0x41 st.fd.wr (j - st.fd.nwr)
        st.fd rfl (by rw [show st.fd.nwr + (j - st.fd.nwr) = j by omega]; exact hk)
      exact ⟨fw, r, fun fuel hf => by
        simp only [if_true, writeToFd]
        exact hrun fuel hf⟩
  obtain ⟨fw, ⟨ok, fd1⟩, hw⟩ := hmark
  have hrd1 : fd1.rd = st.fd.rd := by
    have h0 := hw fw (Nat.le_refl _)
    cases hi : st.initialized with
    | false =>
      simp only [hi, Bool.false_eq_true, if_false, Option.some.injEq, Prod.mk.injEq] at h0
      rw [← h0.2]
    | true =>
      simp only [hi, if_true, writeToFd] at h0
      exact (writeToFd_marker_sound 0x41 fw st.fd ok fd1 h0).2.1
  cases ok with
  | false =>
    refine ⟨fw, iter_t.exited 1 { st with fd := fd1 }, fun fuel hf => ?_⟩
    simp only [HF_ITER, hw fuel hf]
  | true =>
    obtain ⟨f1, ⟨r1, rlen, fd2⟩, h1⟩ := readFromFd_loop_terminates 4 st.fd.rd hrd 4 fd1
      (fun _ => 0) 0 hrd1 (by omega)
    have hrd2 : fd2.rd = st.fd.rd := by
      rw [← hrd1]
      exact (readFromFd_loop_sound 4 f1 fd1 _ 0 r1 rlen fd2 (h1 f1 (Nat.le_refl _))
        (by omega)).1
    cases hb1 : (r1 == ((4 : Nat) : Int)) with
    | false =>
      refine ⟨max fw f1, iter_t.exited 1 { st with initialized := true, fd := fd2 },
        fun fuel hf => ?_⟩
      simp only [HF_ITER, hw fuel (by omega), readFromFdAll, readFromFd, h1 fuel (by omega),
        Option.map_some', hb1]
    | true =>
      by_cases hbig : loadU32 rlen > _HF_PERF_BITMAP_SIZE_16M
      · refine ⟨max fw f1, iter_t.exited 1 { st with initialized := true, fd := fd2 },
          fun fuel hf => ?_⟩
        simp only [HF_ITER, hw fuel (by omega), readFromFdAll, readFromFd, h1 fuel (by omega),
          Option.map_some', hb1, hbig, if_true]
      · obtain ⟨f2, ⟨r2, buf2, fd3⟩, h2⟩ := readFromFd_loop_terminates (loadU32 rlen)
          st.fd.rd hrd (loadU32 rlen) fd2 st.buf 0 hrd2 (by omega)
        cases hb2 : (r2 == ((loadU32 rlen : Nat) : Int)) with
        | false =>
          refine ⟨max fw (max f1 f2),
            iter_t.exited 1 { initialized := true, buf := buf2, fd := fd3 },
            fun fuel hf => ?_⟩
          simp only [HF_ITER, hw fuel (by omega), readFromFdAll, readFromFd,
            h1 fuel (by omega), Option.map_some', hb1, hbig, if_false, h2 fuel (by omega), hb2]
        | true =>
          refine ⟨max fw (max f1 f2),
            iter_t.returned { initialized := true, buf := buf2, fd := fd3 } (loadU32 rlen),
            fun fuel hf => ?_⟩
          simp only [HF_ITER, hw fuel (by omega), readFromFdAll, readFromFd,
            h1 fuel (by omega), Option.map_some', hb1, hbig, if_false, h2 fuel (by omega), hb2]

/-- A complete message of at most `_HF_PERF_BITMAP_SIZE_16M` payload bytes at the head
of the socket is received: `HF_ITER` returns its length and its payload. -/
theorem HF_ITER_message_returns (L : Nat) (payload rest : List Byte) (st : persistent_t)
    (hL : L ≤ 16777216) (hpl : payload.length = L)
    (hin : st.fd.input = encodeLE32 L ++ payload ++ rest)
    (hrd_noerr : ∀ i, st.fd.rd i ≠ ReadEv.error)
    (hrd_fair : ∀ i, ∃ j, i ≤ j ∧ ∃ k, st.fd.rd j = ReadEv.data k)
    (hwr : st.initialized = true →
      (∀ i, st.fd.wr i ≠ WriteEv.error) ∧
      ∀ i, ∃ j, i ≤ j ∧ ∃ k, st.fd.wr j = WriteEv.accept (k + 1)) :
    ∃ fuel0 st1, ∀ fuel, fuel0 ≤ fuel →
      HF_ITER fuel st = some (iter_t.returned st1 L) ∧
      (∀ i (h : i < payload.length), st1.buf i = payload.get ⟨i, h⟩) ∧
      st1.fd.input = rest ∧
      st1.fd.trace = st.fd.trace ++ (if st.initialized then [Xfer.out 0x41] else [])
        ++ (encodeLE32 L ++ payload).map Xfer.inp ∧
      (encodeLE32 L ++ payload).length = 4 + L := by
  -- the completion marker, if any
  have hmark : ∃ fw fd1, (∀ fuel, fw ≤ fuel →
        (if st.initialized then writeToFd fuel st.fd [0x41] 1 else some (true, st.fd)) =
          some (true, fd1)) ∧
      fd1.input = st.fd.input ∧ fd1.rd = st.fd.rd ∧
      fd1.trace = st.fd.trace ++ (if st.initialized then [Xfer.out 0x41] else []) := by
    cases hi : st.initialized with
    | false => exact ⟨0, st.fd, fun _ _ => by simp, rfl, rfl, by simp⟩
    | true =>
      obtain ⟨hne, hfa⟩ := hwr hi
      obtain ⟨j, hj, k, hk⟩ := hfa st.fd.nwr
      obtain ⟨fw, nwr1, hrun⟩ := writeToFd_marker_complete 0x41 st.fd.wr hne
        (j - st.fd.nwr) st.fd rfl
        ⟨k, by rw [show st.fd.nwr + (j - st.fd.nwr) = j by omega]; exact hk⟩
      refine ⟨fw, { st.fd with nwr := nwr1, trace := st.fd.trace ++ [Xfer.out 0x41] },
        fun fuel hf => ?_, rfl, rfl, by simp⟩
      simp only [if_true, writeToFd]
      exact hrun fuel hf
  obtain ⟨fw, fd1, hw, hin1, hrd1, htr1⟩ := hmark
  -- the length prefix
  obtain ⟨f1, nrd1, h1⟩ := readFromFd_loop_complete 4 st.fd.rd hrd_noerr hrd_fair 4
    (encodeLE32 L) (payload ++ rest) fd1 (fun _ => 0) 0 (encodeLE32_length L) hrd1
    (by rw [hin1, hin, List.append_assoc]) (by omega)
  have hlen : loadU32 (Mem.store (fun _ => 0) 0 (encodeLE32 L)) = L := by
    rw [loadU32_encodeLE32]
    exact Nat.mod_eq_of_lt (by omega)
  -- the payload
  obtain ⟨f2, nrd2, h2⟩ := readFromFd_loop_complete L st.fd.rd hrd_noerr hrd_fair L
    payload rest
    { fd1 with input := payload ++ rest, nrd := nrd1,
               trace := fd1.trace ++ (encodeLE32 L).map Xfer.inp }
    st.buf 0 hpl hrd1 rfl (by omega)
  refine ⟨max fw (max f1 f2),
    { initialized := true, buf := st.buf.store 0 payload,
      fd := { fd1 with input := rest, nrd := nrd2,
                       trace := (fd1.trace ++ (encodeLE32 L).map Xfer.inp)
                         ++ payload.map Xfer.inp } },
    fun fuel hf => ⟨?_, ?_, ?_, ?_, ?_⟩⟩
  · have hb : ¬ (L > _HF_PERF_BITMAP_SIZE_16M) := by
      unfold _HF_PERF_BITMAP_SIZE_16M
      omega
    have hlt : ¬ (_HF_PERF_BITMAP_SIZE_16M < L) := hb
    simp only [HF_ITER, hw fuel (by omega), readFromFdAll, readFromFd, h1 fuel (by omega),
      Option.map_some']
    simp only [Nat.cast_ofNat, beq_self_eq_true, gt_iff_lt, hlen, hlt, if_false,
      h2 fuel (by omega), Option.map_some', List.append_assoc]
  · intro i h
    exact Mem.store_prefix st.buf payload i h
  · rfl
  · show (fd1.trace ++ (encodeLE32 L).map Xfer.inp) ++ payload.map Xfer.inp = _
    rw [htr1]
    simp [List.append_assoc]
  · rw [List.length_append, encodeLE32_length, hpl]

/-- The marker write returns false when a `write` fails before one has accepted the
byte. -/
theorem writeToFd_marker_fails (b : Byte) (wr : Nat → WriteEv) :
    ∀ (d : Nat) (fd : Sock), fd.wr = wr → wr (fd.nwr + d) = WriteEv.error →
      (∀ i, i < d → wr (fd.nwr + i) = WriteEv.eintr ∨ wr (fd.nwr + i) = WriteEv.accept 0) →
      ∃ fuel0 fd1, ∀ fuel, fuel0 ≤ fuel →
        writeToFd_loop [b] 1 fuel fd 0 = some (false, fd1) := by
  intro d
  induction d with
  | zero =>
    intro fd hwr he _
    refine ⟨1, { fd with nwr := fd.nwr + 1 }, ?_⟩
    intro fuel hf
    obtain ⟨f, rfl⟩ : ∃ f, fuel = f + 1 := ⟨fuel - 1, by omega⟩
    have hev : fd.wr fd.nwr = WriteEv.error := by rw [hwr]; exact he
    simp only [writeToFd_loop, Nat.lt_one_iff, if_true, hev]
  | succ d ihd =>
    intro fd hwr he hpre
    obtain ⟨fuel0, fd1, hrun⟩ := ihd { fd with nwr := fd.nwr + 1 } hwr
      (by
        show wr (fd.nwr + 1 + d) = WriteEv.error
        rw [show fd.nwr + 1 + d = fd.nwr + (d + 1) by omega]
        exact he)
      (by
        intro i hi
        show wr (fd.nwr + 1 + i) = WriteEv.eintr ∨ wr (fd.nwr + 1 + i) = WriteEv.accept 0
        rw [show fd.nwr + 1 + i = fd.nwr + (i + 1) by omega]
        exact hpre (i + 1) (by omega))
    refine ⟨fuel0 + 1, fd1, ?_⟩
    intro fuel hf
    obtain ⟨f, rfl⟩ : ∃ f, fuel = f + 1 := ⟨fuel - 1, by omega⟩
    have hstep : writeToFd_loop [b] 1 (f + 1) fd 0 =
        writeToFd_loop [b] 1 f { fd with nwr := fd.nwr + 1 } 0 := by
      rcases hpre 0 (by omega) with h0 | h0
      · have hev1 : fd.wr fd.nwr = WriteEv.eintr := by rw [hwr]; exact h0
        simp [writeToFd_loop, hev1]
      · have hev1 : fd.wr fd.nwr = WriteEv.accept 0 := by rw [hwr]; exact h0
        simp [writeToFd_loop, hev1]
    rw [hstep, hrun f (by omega)]

/-- C16. `HF_ITER` returns only after a complete, in-bounds message.
(1) However a call ends, it is an `_exit` with status 1 or a return; a return comes
with a length of at most `_HF_PERF_BITMAP_SIZE_16M`, after four bytes holding that
length and as many payload bytes have been taken from the socket and put at the start
of the buffer, nothing written beyond them, and no `read` or `write` of the call
failed; an exit leaves the buffer untouched from `_HF_PERF_BITMAP_SIZE_16M` on.
(2) When interruptions do not go on forever the call does end, and it ends in
`_exit(1)` whenever the socket does not hold a complete message with a length of at
most `_HF_PERF_BITMAP_SIZE_16M` (the stream ends early, or declares more).
(3) When the marker is due and a `write` fails before the byte is accepted, the call
ends in `_exit(1)`.
(4) A message of exactly 16 MiB is received. -/
theorem HF_ITER_only_complete (st : persistent_t) :
    (∀ fuel r, HF_ITER fuel st = some r →
      (∀ status st1, r = iter_t.exited status st1 →
        status = 1 ∧ ∀ i, _HF_PERF_BITMAP_SIZE_16M ≤ i → st1.buf i = st.buf i) ∧
      (∀ st1 len, r = iter_t.returned st1 len →
        len ≤ _HF_PERF_BITMAP_SIZE_16M ∧
        (∃ b4 payload : List Byte, st.fd.input = b4 ++ payload ++ st1.fd.input ∧
          b4.length = 4 ∧ loadU32 (Mem.store (fun _ => 0) 0 b4) = len ∧
          payload.length = len ∧
          (∀ i (h : i < payload.length), st1.buf i = payload.get ⟨i, h⟩)) ∧
        (∀ i, len ≤ i → st1.buf i = st.buf i) ∧
        (∀ i, st.fd.nrd ≤ i → i < st1.fd.nrd → st.fd.rd i ≠ ReadEv.error) ∧
        (∀ i, st.fd.nwr ≤ i → i < st1.fd.nwr → st.fd.wr i ≠ WriteEv.error))) ∧
    ((∀ i, ∃ j, i ≤ j ∧ st.fd.rd j ≠ ReadEv.eintr) →
     (∀ i, ∃ j, i ≤ j ∧
        (st.fd.wr j = WriteEv.error ∨ ∃ k, st.fd.wr j = WriteEv.accept (k + 1))) →
      (∃ fuel0 r, ∀ fuel, fuel0 ≤ fuel → HF_ITER fuel st = some r) ∧
      (¬ (∃ b4 payload rest : List Byte, st.fd.input = b4 ++ payload ++ rest ∧
            b4.length = 4 ∧ loadU32 (Mem.store (fun _ => 0) 0 b4) = payload.length ∧
            payload.length ≤ _HF_PERF_BITMAP_SIZE_16M) →
        ∃ fuel0 st1, ∀ fuel, fuel0 ≤ fuel →
          HF_ITER fuel st = some (iter_t.exited 1 st1))) ∧
    (st.initialized = true →
      (∃ j, st.fd.nwr ≤ j ∧ st.fd.wr j = WriteEv.error ∧
        ∀ i, st.fd.nwr ≤ i → i < j →
          (st.fd.wr i = WriteEv.eintr ∨ st.fd.wr i = WriteEv.accept 0)) →
      ∃ fuel0 st1, ∀ fuel, fuel0 ≤ fuel → HF_ITER fuel st = some (iter_t.exited 1 st1)) ∧
    (∀ payload rest : List Byte, payload.length = 16777216 →
      st.fd.input = encodeLE32 16777216 ++ payload ++ rest →
      (∀ i, st.fd.rd i ≠ ReadEv.error) →
      (∀ i, ∃ j, i ≤ j ∧ ∃ k, st.fd.rd j = ReadEv.data k) →
      (st.initialized = true →
        (∀ i, st.fd.wr i ≠ WriteEv.error) ∧
        ∀ i, ∃ j, i ≤ j ∧ ∃ k, st.fd.wr j = WriteEv.accept (k + 1)) →
      ∃ fuel0 st1, ∀ fuel, fuel0 ≤ fuel →
        HF_ITER fuel st = some (iter_t.returned st1 16777216)) := by
  refine ⟨?_, ?_, ?_, ?_⟩
  · intro fuel r h
    obtain ⟨hex, hret⟩ := HF_ITER_sound fuel st r h
    refine ⟨hex, ?_⟩
    intro st1 len hr
    obtain ⟨h1, ⟨b4, payload, h2, h3, h4, h5, h6⟩, h7, h8⟩ := hret st1 len hr
    refine ⟨h1, ⟨b4, payload, h2, h3, h4, h5, ?_⟩, ?_, h7, h8⟩
    · intro i hi
      rw [h6]
      exact Mem.store_prefix st.buf payload i hi
    · intro i hi
      rw [h6]
      exact Mem.store_outside st.buf 0 payload i (by omega)
  · intro hrd hwr
    obtain ⟨fuel0, r, hrun⟩ := HF_ITER_terminates st hrd hwr
    refine ⟨⟨fuel0, r, hrun⟩, ?_⟩
    intro hbad
    obtain ⟨hex, hret⟩ := HF_ITER_sound fuel0 st r (hrun fuel0 (Nat.le_refl _))
    cases r with
    | exited status st1 =>
      obtain ⟨hs, _⟩ := hex status st1 rfl
      subst hs
      exact ⟨fuel0, st1, hrun⟩
    | returned st1 len =>
      obtain ⟨h1, ⟨b4, payload, h2, h3, h4, h5, _⟩, _, _⟩ := hret st1 len rfl
      exact absurd ⟨b4, payload, st1.fd.input, h2, h3, by rw [h4, h5], by omega⟩ hbad
  · intro hi hfail
    obtain ⟨j, hj, he, hpre⟩ := hfail
    obtain ⟨fuel0, fd1, hrun⟩ := writeToFd_marker_fails 0x41 st.fd.wr (j - st.fd.nwr) st.fd rfl
      (by rw [show st.fd.nwr + (j - st.fd.nwr) = j by omega]; exact he)
      (fun i hi2 => hpre (st.fd.nwr + i) (by omega) (by omega))
    refine ⟨fuel0, { st with fd := fd1 }, ?_⟩
    intro fuel hf
    simp only [HF_ITER, hi, if_true, writeToFd, hrun fuel hf]
  · intro payload rest hpl hin hne hfair hw
    obtain ⟨fuel0, st1, hrun⟩ := HF_ITER_message_returns 16777216 payload rest st
      (Nat.le_refl _) hpl hin hne hfair hw
    exact ⟨fuel0, st1, fun fuel hf => (hrun fuel hf).1⟩

theorem demoSock_rd_fair (input : List Byte) :
    ∀ i, ∃ j, i ≤ j ∧ (demoSock input).rd j ≠ ReadEv.eintr := by
  intro i
  refine ⟨2 * i + 1, by omega, ?_⟩
  simp only [demoSock]
  rw [if_neg (by omega)]
  simp

theorem demoSock_wr_fair (input : List Byte) :
    ∀ i, ∃ j, i ≤ j ∧ ((demoSock input).wr j = WriteEv.error ∨
      ∃ k, (demoSock input).wr j = WriteEv.accept (k + 1)) := by
  intro i
  refine ⟨2 * i + 1, by omega, Or.inr ⟨0, ?_⟩⟩
  simp only [demoSock]
  rw [if_neg (by omega)]

theorem HF_ITER_only_complete_witness :
    ∃ fuel0 st1, ∀ fuel, fuel0 ≤ fuel →
      HF_ITER fuel ⟨false, fun _ => 0, demoSock [2, 0, 0, 0, 7]⟩ =
        some (iter_t.exited 1 st1) :=
  ((HF_ITER_only_complete ⟨false, fun _ => 0, demoSock [2, 0, 0, 0, 7]⟩).2.1
    (demoSock_rd_fair _) (demoSock_wr_fair _)).2 (by
      rintro ⟨b4, payload, rest, hin, hb4, hload, _⟩
      have hin2 : ([2, 0, 0, 0] : List Byte) ++ [7] = b4 ++ (payload ++ rest) := by
        rw [← List.append_assoc, ← hin]
        rfl
      obtain ⟨e1, e2⟩ := List.append_inj hin2 (by rw [hb4]; rfl)
      rw [← e1, loadU32_store] at hload
      have hl : (payload ++ rest).length = 1 := by rw [← e2]; rfl
      rw [List.length_append] at hl
      simp at hload
      omega)

end Honggfuzz
